import Mathlib

/-!
Shallow embedding of the resilient data-fetch pipeline of the
`pcmarts/Web3-career-mcp` repository (src/services/api.ts, src/services/cache.ts,
src/tools/index.ts), together with proofs of the specification's claims.

Strings of the JavaScript runtime are modelled as `List Char`; JavaScript
timestamps (`Date.now()`) as `Nat` milliseconds passed explicitly; the single
HTTP GET of one attempt is modelled by a function `Nat → Except FetchError JVal`
from the attempt index to the outcome the upstream produces on that attempt.
-/

/-- A JSON-like runtime value, as delivered by `axios` after parsing the
response body.  `jnum` carries an `Int`: the claims never inspect numeric
payload values, only carry them through. -/
inductive JVal where
  | jnull
  | jbool (b : Bool)
  | jnum (n : Int)
  | jstr (s : List Char)
  | jarr (elems : List JVal)
  | jobj (fields : List (List Char × JVal))

/-- `Array.isArray(x)`. -/
def JVal.isArr : JVal → Bool
  | .jarr _ => true
  | _ => false

/-- `x === null`. -/
def JVal.isNull : JVal → Bool
  | .jnull => true
  | _ => false

/-- JavaScript `typeof x === 'object'`: true for plain objects, arrays and
`null`. -/
def JVal.jsTypeofObject : JVal → Bool
  | .jnull => true
  | .jarr _ => true
  | .jobj _ => true
  | _ => false

/-! ## SimpleCache (src/services/cache.ts)

The JS `Map` backing the cache is modelled as an association list with the
first binding for a key being the live one.  `Map.set` replaces an existing
binding in place or appends; `Map.delete` removes the binding of the key
(reachable maps never hold duplicate keys, so removing every binding of the
key is the same operation); `Map.clear` empties the map. -/

/-- One stored cache item: `{ value: T; expiry: number }`. -/
structure CacheEntry (α : Type) where
  value : α
  expiry : Nat
  deriving DecidableEq

/-- The `Map<string, { value: T; expiry: number }>` inside `SimpleCache`. -/
abbrev CacheMap (α : Type) := List (List Char × CacheEntry α)

/-- `Map.prototype.get`. -/
def mapGet {α : Type} : CacheMap α → List Char → Option (CacheEntry α)
  | [], _ => none
  | (k', e) :: rest, k => if k' = k then some e else mapGet rest k

/-- `Map.prototype.set`: replace the binding in place, or append a new one. -/
def mapSet {α : Type} : CacheMap α → List Char → CacheEntry α → CacheMap α
  | [], k, e => [(k, e)]
  | (k', e') :: rest, k, e =>
      if k' = k then (k, e) :: rest else (k', e') :: mapSet rest k e

/-- `Map.prototype.delete`. -/
def mapDelete {α : Type} (m : CacheMap α) (k : List Char) : CacheMap α :=
  m.filter (fun kv => !(kv.1 = k : Bool))

/-- `SimpleCache.set(key, value, ttlMs?)` at current time `now`; `ttl` is the
ttl actually in effect (`ttlMs ?? this.defaultTtlMs`). -/
def SimpleCache.set {α : Type} (now ttl : Nat) (m : CacheMap α)
    (key : List Char) (value : α) : CacheMap α :=
  mapSet m key ⟨value, now + ttl⟩

/-- `SimpleCache.get(key)` at current time `now`: returns the value (if the
entry exists and is not expired) together with the map after the lazy
deletion of an expired entry. -/
def SimpleCache.get {α : Type} (now : Nat) (m : CacheMap α) (key : List Char) :
    Option α × CacheMap α :=
  match mapGet m key with
  | none => (none, m)
  | some item =>
      if now > item.expiry then (none, mapDelete m key) else (some item.value, m)

/-- `SimpleCache.clear()`. -/
def SimpleCache.clear {α : Type} : CacheMap α := []

/-! ## Retry configuration (src/services/api.ts, top of file) -/

def MAX_RETRIES : Nat := 3
def INITIAL_RETRY_DELAY_MS : Nat := 1000
def MAX_RETRY_DELAY_MS : Nat := 10000
def CACHE_TTL_MS : Nat := 5 * 60 * 1000

/-! ## Errors of one fetch attempt -/

/-- What a single failed `axios.get` can look like to the catch block:
an axios error carrying a response with an HTTP status; an axios error with no
response (`requestSent` tells whether `error.request` is set, i.e. whether the
request went out); or a non-axios error (e.g. the normalizer's `new Error`). -/
inductive FetchError where
  | http (status : Nat)
  | network (requestSent : Bool)
  | other
  deriving DecidableEq

/-- `Web3CareerService.isRetryableError` (api.ts lines 21-34). -/
def Web3CareerService.isRetryableError : FetchError → Bool
  | .http status => status == 429 || status ≥ 500
  | .network requestSent => requestSent
  | .other => false

/-! ## fetchWithRetry (api.ts lines 36-76)

The `for (let attempt = 0; attempt <= maxRetries; attempt++)` loop is modelled
with an explicit fuel argument that starts at `maxRetries + 1` (the number of
loop iterations still allowed); the fuel-0 case mirrors the trailing
`throw lastError` after the loop, which is unreachable from the entry point.
The returned `Nat` counts the attempts performed. -/

def fetchWithRetryGo (upstream : Nat → Except FetchError JVal) (maxRetries : Nat) :
    Nat → Nat → Except FetchError JVal × Nat
  | attempt, 0 => (.error .other, attempt)
  | attempt, fuel + 1 =>
      match upstream attempt with
      | .ok v => (.ok v, attempt + 1)
      | .error e =>
          if attempt = maxRetries ∨ Web3CareerService.isRetryableError e = false then
            (.error e, attempt + 1)
          else
            fetchWithRetryGo upstream maxRetries (attempt + 1) fuel

/-- `Web3CareerService.fetchWithRetry` (the delay between attempts does not
affect the returned value and is modelled separately by `nextDelay`). -/
def Web3CareerService.fetchWithRetry (upstream : Nat → Except FetchError JVal)
    (maxRetries : Nat) : Except FetchError JVal × Nat :=
  fetchWithRetryGo upstream maxRetries 0 (maxRetries + 1)

/-! ## Backoff delay (api.ts lines 54-59) -/

/-- `Math.min(INITIAL_RETRY_DELAY_MS * Math.pow(2, attempt), MAX_RETRY_DELAY_MS)`. -/
def baseDelay (attempt : Nat) : Nat :=
  min (INITIAL_RETRY_DELAY_MS * 2 ^ attempt) MAX_RETRY_DELAY_MS

/-- `Math.floor(baseDelay + baseDelay * 0.2 * j)` where `j = Math.random()*2 - 1`
is the jitter draw in `[-1, 1]`. -/
def nextDelay (attempt : Nat) (j : ℚ) : ℤ :=
  ⌊(baseDelay attempt : ℚ) + (baseDelay attempt : ℚ) * (1 / 5) * j⌋

/-! ## Error classification (src/tools/index.ts, catch block of get_web3_jobs) -/

/-- The closed error taxonomy the tool layer renders. -/
inductive ClassifiedError where
  | unauthorized
  | forbidden
  | rateLimited
  | upstreamServerError (status : Nat)
  | upstreamClientError (status : Nat)
  | networkUnreachable
  | unknown
  deriving DecidableEq

/-- How `getJobs` can fail: a propagated fetch error, or one of the two
normalization failures thrown in api.ts lines 100-114. -/
inductive ApiFailure where
  | fetchFailed (e : FetchError)
  | notArray
  | noJobsArray
  deriving DecidableEq

/-- The if-chain of the tool layer's catch block, in source order:
401, 403, 429, `>= 500`, `>= 400`, request-without-response, fallback. -/
def classifyError : ApiFailure → ClassifiedError
  | .fetchFailed (.http s) =>
      if s = 401 then .unauthorized
      else if s = 403 then .forbidden
      else if s = 429 then .rateLimited
      else if s ≥ 500 then .upstreamServerError s
      else if s ≥ 400 then .upstreamClientError s
      else .unknown
  | .fetchFailed (.network requestSent) =>
      if requestSent then .networkUnreachable else .unknown
  | .fetchFailed .other => .unknown
  | .notArray => .unknown
  | .noJobsArray => .unknown

/-! ## Decimal digits (JavaScript's number-to-string for the array indices and
for `JSON.stringify` of an integral number) -/

def digitChar (d : Nat) : Char := Char.ofNat (48 + d)

/-- Decimal digits, most significant first; `fuel` bounds the recursion depth
(any `fuel > n` gives the value, see `natDigits_eq`). -/
def natDigitsAux : Nat → Nat → List Char
  | 0, _ => []
  | fuel + 1, n =>
      if n < 10 then [digitChar n]
      else natDigitsAux fuel (n / 10) ++ [digitChar (n % 10)]

def natDigits (n : Nat) : List Char := natDigitsAux (n + 1) n

theorem natDigitsAux_irrel :
    ∀ n f1 f2, n < f1 → n < f2 → natDigitsAux f1 n = natDigitsAux f2 n := by
  intro n
  induction n using Nat.strong_induction_on with
  | _ n ih =>
      intro f1 f2 h1 h2
      match f1, f2 with
      | f1 + 1, f2 + 1 =>
        rw [natDigitsAux, natDigitsAux]
        by_cases h10 : n < 10
        · simp [h10]
        · rw [if_neg h10, if_neg h10,
            ih (n / 10) (Nat.div_lt_self (by omega) (by omega)) f1 f2
              (by omega) (by omega)]

/-- The recursion `natDigits` satisfies. -/
theorem natDigits_eq (n : Nat) :
    natDigits n =
      if n < 10 then [digitChar n]
      else natDigits (n / 10) ++ [digitChar (n % 10)] := by
  rw [natDigits, natDigitsAux]
  by_cases h10 : n < 10
  · simp [h10]
  · rw [if_neg h10, if_neg h10, natDigits,
      natDigitsAux_irrel (n / 10) n (n / 10 + 1)
        (Nat.div_lt_self (by omega) (by omega)) (by omega)]

/-! ## Description sanitization (api.ts lines 134-144)

`description.replace(/<[^>]+>/g, ' ').replace(/\s+/g, ' ').trim()` followed by
truncation to 500 characters plus an ellipsis marker. -/

/-- The characters matched by the JavaScript regex class `\s`. -/
def isJsWhitespace (c : Char) : Bool :=
  c = ' ' || c = '\t' || c = '\n' || c = '\r' ||
  c.toNat = 11 || c.toNat = 12 || c.toNat = 0xa0 || c.toNat = 0x1680 ||
  (0x2000 ≤ c.toNat && c.toNat ≤ 0x200a) ||
  c.toNat = 0x2028 || c.toNat = 0x2029 || c.toNat = 0x202f ||
  c.toNat = 0x205f || c.toNat = 0x3000 || c.toNat = 0xfeff

/-- Scan to the first `>`; return the remainder after it. -/
def seekClose : List Char → Option (List Char)
  | [] => none
  | c :: rest => if c = '>' then some rest else seekClose rest

/-- From the character after a `<`: does `/<[^>]+>/` match here?  The class
`[^>]+` greedily takes the (nonempty) run up to the first `>`; `takeTag`
returns the remainder after that closing `>`. -/
def takeTag : List Char → Option (List Char)
  | [] => none
  | c :: rest => if c = '>' then none else seekClose rest

theorem seekClose_length : ∀ s r, seekClose s = some r → r.length < s.length := by
  intro s
  induction s with
  | nil => intro r h; simp [seekClose] at h
  | cons c rest ih =>
      intro r h
      rw [seekClose] at h
      split at h
      · injection h with h
        subst h
        simp only [List.length_cons]
        omega
      · have := ih r h
        simp only [List.length_cons]
        omega

theorem takeTag_length : ∀ s r, takeTag s = some r → r.length < s.length := by
  intro s r h
  cases s with
  | nil => simp [takeTag] at h
  | cons c rest =>
      rw [takeTag] at h
      split at h
      · exact absurd h (by simp)
      · have := seekClose_length rest r h
        simp only [List.length_cons]
        omega

/-- `description.replace(/<[^>]+>/g, ' ')`, with a structural fuel argument
(any `fuel > s.length` gives the value, see `stripTags_eq`): each match of
`<` followed by a nonempty `>`-free run and a closing `>` is replaced by one
space; a `<` that starts no match is kept and scanning continues after it. -/
def stripTagsAux : Nat → List Char → List Char
  | 0, _ => []
  | fuel + 1, s =>
      match s with
      | [] => []
      | c :: rest =>
          if c = '<' then
            match takeTag rest with
            | some rest' => ' ' :: stripTagsAux fuel rest'
            | none => '<' :: stripTagsAux fuel rest
          else c :: stripTagsAux fuel rest

def stripTags (s : List Char) : List Char := stripTagsAux (s.length + 1) s

theorem stripTagsAux_irrel : ∀ f1 s f2, s.length < f1 → s.length < f2 →
    stripTagsAux f1 s = stripTagsAux f2 s := by
  intro f1
  induction f1 with
  | zero => intro s f2 h1 _; omega
  | succ f1 ih =>
      intro s f2 h1 h2
      match f2, s with
      | f2 + 1, [] => rfl
      | f2 + 1, c :: rest =>
        simp only [List.length_cons] at h1 h2
        rw [stripTagsAux, stripTagsAux]
        by_cases hc : c = '<'
        · rw [if_pos hc, if_pos hc]
          cases htake : takeTag rest with
          | some rest' =>
              have hlt := takeTag_length rest rest' htake
              show ' ' :: stripTagsAux f1 rest' = ' ' :: stripTagsAux f2 rest'
              rw [ih rest' f2 (by omega) (by omega)]
          | none =>
              show '<' :: stripTagsAux f1 rest = '<' :: stripTagsAux f2 rest
              rw [ih rest f2 (by omega) (by omega)]
        · rw [if_neg hc, if_neg hc, ih rest f2 (by omega) (by omega)]

/-- The recursion `stripTags` satisfies. -/
theorem stripTags_eq (s : List Char) :
    stripTags s =
      match s with
      | [] => []
      | c :: rest =>
          if c = '<' then
            match takeTag rest with
            | some rest' => ' ' :: stripTags rest'
            | none => '<' :: stripTags rest
          else c :: stripTags rest := by
  cases s with
  | nil => rfl
  | cons c rest =>
      show (if c = '<' then
          match takeTag rest with
          | some rest' => ' ' :: stripTagsAux (rest.length + 1) rest'
          | none => '<' :: stripTagsAux (rest.length + 1) rest
        else c :: stripTagsAux (rest.length + 1) rest) =
        (if c = '<' then
          match takeTag rest with
          | some rest' => ' ' :: stripTags rest'
          | none => '<' :: stripTags rest
        else c :: stripTags rest)
      by_cases hc : c = '<'
      · rw [if_pos hc, if_pos hc]
        cases htake : takeTag rest with
        | some rest' =>
            have hlt := takeTag_length rest rest' htake
            show ' ' :: stripTagsAux (rest.length + 1) rest' = ' ' :: stripTags rest'
            rw [stripTags,
              stripTagsAux_irrel (rest.length + 1) rest' (rest'.length + 1)
                (by omega) (by omega)]
        | none =>
            show '<' :: stripTagsAux (rest.length + 1) rest = '<' :: stripTags rest
            rfl
      · rw [if_neg hc, if_neg hc]
        show c :: stripTagsAux (rest.length + 1) rest = c :: stripTags rest
        rfl

theorem dropWhileLenLe {α : Type} (p : α → Bool) :
    ∀ l : List α, (l.dropWhile p).length ≤ l.length := by
  intro l
  induction l with
  | nil => simp
  | cons c rest ih =>
      rw [List.dropWhile_cons]
      split
      · simp only [List.length_cons]
        omega
      · simp

/-- `.replace(/\s+/g, ' ')`, with a structural fuel argument (any
`fuel > s.length` gives the value, see `collapseWs_eq`): each maximal
whitespace run becomes one space. -/
def collapseWsAux : Nat → List Char → List Char
  | 0, _ => []
  | fuel + 1, s =>
      match s with
      | [] => []
      | c :: rest =>
          if isJsWhitespace c then
            ' ' :: collapseWsAux fuel (rest.dropWhile isJsWhitespace)
          else c :: collapseWsAux fuel rest

def collapseWs (s : List Char) : List Char := collapseWsAux (s.length + 1) s

theorem collapseWsAux_irrel : ∀ f1 s f2, s.length < f1 → s.length < f2 →
    collapseWsAux f1 s = collapseWsAux f2 s := by
  intro f1
  induction f1 with
  | zero => intro s f2 h1 _; omega
  | succ f1 ih =>
      intro s f2 h1 h2
      match f2, s with
      | f2 + 1, [] => rfl
      | f2 + 1, c :: rest =>
        simp only [List.length_cons] at h1 h2
        rw [collapseWsAux, collapseWsAux]
        by_cases hc : isJsWhitespace c
        · have := dropWhileLenLe isJsWhitespace rest
          rw [if_pos hc, if_pos hc,
            ih (rest.dropWhile isJsWhitespace) f2 (by omega) (by omega)]
        · rw [if_neg hc, if_neg hc, ih rest f2 (by omega) (by omega)]

/-- The recursion `collapseWs` satisfies. -/
theorem collapseWs_eq (s : List Char) :
    collapseWs s =
      match s with
      | [] => []
      | c :: rest =>
          if isJsWhitespace c then
            ' ' :: collapseWs (rest.dropWhile isJsWhitespace)
          else c :: collapseWs rest := by
  cases s with
  | nil => rfl
  | cons c rest =>
      show (if isJsWhitespace c then
          ' ' :: collapseWsAux (rest.length + 1) (rest.dropWhile isJsWhitespace)
        else c :: collapseWsAux (rest.length + 1) rest) =
        (if isJsWhitespace c then
          ' ' :: collapseWs (rest.dropWhile isJsWhitespace)
        else c :: collapseWs rest)
      by_cases hc : isJsWhitespace c
      · rw [if_pos hc, if_pos hc]
        have := dropWhileLenLe isJsWhitespace rest
        show ' ' :: collapseWsAux (rest.length + 1) (rest.dropWhile isJsWhitespace) =
          ' ' :: collapseWs (rest.dropWhile isJsWhitespace)
        rw [collapseWs,
          collapseWsAux_irrel (rest.length + 1) (rest.dropWhile isJsWhitespace)
            ((rest.dropWhile isJsWhitespace).length + 1) (by omega) (by omega)]
      · rw [if_neg hc, if_neg hc]
        show c :: collapseWsAux (rest.length + 1) rest = c :: collapseWs rest
        rfl

/-- `.trim()`. -/
def trimWs (s : List Char) : List Char :=
  (((s.dropWhile isJsWhitespace).reverse).dropWhile isJsWhitespace).reverse

/-- The full processing of a string `description` field, including the
truncation `description.substring(0, 500) + "..."` when longer than 500. -/
def cleanDescription (s : List Char) : List Char :=
  let d := trimWs (collapseWs (stripTags s))
  if 500 < d.length then d.take 500 ++ "...".data else d

/-! Specification-side predicates for the description invariant: a match of
the markup regex `/<[^>]+>/` inside a string. -/

/-- `/[0-9]/` test on a character. -/
def isDigitCh (c : Char) : Bool := 48 ≤ c.toNat && c.toNat ≤ 57

/-- Does `/[^>]+>/` match at this point (right after a `<`)?  Equivalently:
the next character is not `>` and some `>` occurs later (the first such `>`
closes the match). -/
def tagAfterLt : List Char → Bool
  | [] => false
  | d :: rest => !(d = '>' : Bool) && rest.contains '>'

/-- Does the string contain a substring matching the markup-tag pattern
`/<[^>]+>/`? -/
def hasMarkup : List Char → Bool
  | [] => false
  | c :: rest => (if c = '<' then tagAfterLt rest else false) || hasMarkup rest

/-- Invariant after a `<`: either nothing follows, or `>` follows at once
(empty tag body, no match), or no `>` occurs at all. -/
def ltOk : List Char → Bool
  | [] => true
  | d :: rest => (d = '>' : Bool) || !(rest.contains '>')

/-- Every `<` in the string is immediately closed or never closed: no
markup-tag match can exist (`noOpenTag_hasMarkup`), and the property is
stable under the whitespace post-processing. -/
def noOpenTag : List Char → Bool
  | [] => true
  | c :: rest => (if c = '<' then ltOk rest else true) && noOpenTag rest

/-! ## Job normalization (api.ts lines 116-154) -/

/-- The normalized `Web3Job` record: the nine typed fields and `description`,
plus the pass-through bag for upstream keys outside the fixed set.  A field
whose upstream value is missing or wrongly typed is `none` (JS `undefined`). -/
structure Job where
  id : Option (List Char)
  title : Option (List Char)
  company : Option (List Char)
  location : Option (List Char)
  remote : Option Bool
  url : Option (List Char)
  salary : Option (List Char)
  postedAt : Option (List Char)
  tags : Option (List (List Char))
  description : Option (List Char)
  extra : List (List Char × JVal)

def emptyJob : Job :=
  ⟨none, none, none, none, none, none, none, none, none, none, []⟩

/-- Property read `obj[key]` on a JS object (objects hold each key once; the
first binding is the one the runtime sees). -/
def objGet : List (List Char × JVal) → List Char → Option JVal
  | [], _ => none
  | (k', v) :: rest, k => if k' = k then some v else objGet rest k

/-- `typeof v === 'string'` refinement of a property value. -/
def JVal.asStr : JVal → Option (List Char)
  | .jstr s => some s
  | _ => none

/-- `typeof v === 'boolean'` refinement of a property value. -/
def JVal.asBool : JVal → Option Bool
  | .jbool b => some b
  | _ => none

/-- The own keys of the `processed` object literal: all ten are created as
own properties (those given `undefined` included). -/
def knownJobKeys : List (List Char) :=
  ["id".data, "title".data, "company".data, "location".data, "remote".data,
   "url".data, "salary".data, "postedAt".data, "tags".data, "description".data]

/-- The property names of `Object.prototype` in the Node runtime.  A plain
object literal inherits them, and the JS `in` operator consults the prototype
chain, so `key in processed` is also true for each of these names. -/
def objectPrototypeKeys : List (List Char) :=
  ["constructor".data, "hasOwnProperty".data, "isPrototypeOf".data,
   "propertyIsEnumerable".data, "toLocaleString".data, "toString".data,
   "valueOf".data, "__defineGetter__".data, "__defineSetter__".data,
   "__lookupGetter__".data, "__lookupSetter__".data, "__proto__".data]

/-- The copy-loop guard `key in processed` (api.ts line 148): true for the
ten own keys of the `processed` literal and for every name inherited from
`Object.prototype`. -/
def inProcessed (k : List Char) : Bool :=
  knownJobKeys.contains k || objectPrototypeKeys.contains k

/-- The key/value entries a job element exposes to property access and
`Object.keys`: a plain object exposes its fields; an array is a JS object
whose own keys are the decimal indices of its elements; `null` and primitives
fail the `typeof job !== 'object' || job === null` guard. -/
def jsObjectEntries : JVal → Option (List (List Char × JVal))
  | .jobj kvs => some kvs
  | .jarr xs => some (xs.enum.map (fun p => (natDigits p.1, p.2)))
  | _ => none

/-- One element of the located job list (the body of `jobs.map`). -/
def processJob (job : JVal) : Job :=
  match jsObjectEntries job with
  | none => emptyJob
  | some kvs =>
      { id := (objGet kvs "id".data).bind JVal.asStr
        title := (objGet kvs "title".data).bind JVal.asStr
        company := (objGet kvs "company".data).bind JVal.asStr
        location := (objGet kvs "location".data).bind JVal.asStr
        remote := (objGet kvs "remote".data).bind JVal.asBool
        url := (objGet kvs "url".data).bind JVal.asStr
        salary := (objGet kvs "salary".data).bind JVal.asStr
        postedAt := (objGet kvs "postedAt".data).bind JVal.asStr
        tags :=
          match objGet kvs "tags".data with
          | some (.jarr xs) => some (xs.filterMap JVal.asStr)
          | _ => none
        description := ((objGet kvs "description".data).bind JVal.asStr).map cleanDescription
        extra := kvs.filter (fun kv => !(inProcessed kv.1)) }

/-- Locating the job list and mapping it (api.ts lines 100-154): require an
array; take its first array element; otherwise fall back to the whole payload
when its first element passes `typeof data[0] === 'object' && data[0] !== null`;
otherwise fail. -/
def normalizeResponse (data : JVal) : Except ApiFailure (List Job) :=
  match data with
  | .jarr items =>
      match items.find? JVal.isArr with
      | some (.jarr js) => .ok (js.map processJob)
      | some _ => .error .noJobsArray
      | none =>
          match items with
          | [] => .error .noJobsArray
          | first :: _ =>
              if first.jsTypeofObject && !first.isNull then
                .ok (items.map processJob)
              else .error .noJobsArray
  | _ => .error .notArray

/-! ## JobFilters and the cache key (types/index.ts; api.ts lines 78-95)

A TypeScript `JobFilters` value is at runtime a JS object.  The record below
is its field content; `filtersToObj` lays the set fields out in the insertion
order the tool layer uses when it builds the object literal
`{ remote, limit, country, tag, show_description }` (absent fields carry
`undefined` and are skipped by `JSON.stringify`).  `FilterObj` is the JS-level
view: an insertion-ordered list of set fields, needed because
`JSON.stringify` serializes properties in insertion order. -/

/-- A value one of the five filter fields can hold (`boolean`, `number`,
`string`). -/
inductive FVal where
  | fbool (b : Bool)
  | fnum (n : Nat)
  | fstr (s : List Char)
  deriving DecidableEq

/-- JavaScript truthiness of a filter field value. -/
def FVal.truthy : FVal → Bool
  | .fbool b => b
  | .fnum n => !(n == 0)
  | .fstr s => !(s.isEmpty)

/-- The JS object underlying a `JobFilters` value: set fields in insertion
order. -/
abbrev FilterObj := List (List Char × FVal)

structure JobFilters where
  remote : Option Bool
  limit : Option Nat
  country : Option (List Char)
  tag : Option (List Char)
  show_description : Option Bool
  deriving DecidableEq

/-- The object layout produced by the tool layer's literal
`{ remote, limit, country, tag, show_description }`. -/
def filtersToObj (f : JobFilters) : FilterObj :=
  (match f.remote with | some b => [("remote".data, .fbool b)] | none => [])
  ++ (match f.limit with | some n => [("limit".data, .fnum n)] | none => [])
  ++ (match f.country with | some s => [("country".data, .fstr s)] | none => [])
  ++ (match f.tag with | some s => [("tag".data, .fstr s)] | none => [])
  ++ (match f.show_description with
      | some b => [("show_description".data, .fbool b)] | none => [])

/-! `JSON.stringify` for such an object. -/

/-- Lowercase hex digit. -/
def hexDigitChar (d : Nat) : Char :=
  if d < 10 then digitChar d else Char.ofNat (87 + d)

/-- How `JSON.stringify` escapes one character inside a string literal. -/
def escapeChar (c : Char) : List Char :=
  if c = '"' then ['\\', '"']
  else if c = '\\' then ['\\', '\\']
  else if c.toNat = 8 then ['\\', 'b']
  else if c = '\t' then ['\\', 't']
  else if c = '\n' then ['\\', 'n']
  else if c.toNat = 12 then ['\\', 'f']
  else if c = '\r' then ['\\', 'r']
  else if c.toNat < 32 then
    ['\\', 'u', '0', '0', hexDigitChar (c.toNat / 16), hexDigitChar (c.toNat % 16)]
  else [c]

def escapeStr (s : List Char) : List Char := (s.map escapeChar).flatten

/-- A JSON string literal: `"` + escaped body + `"`. -/
def quoteStr (s : List Char) : List Char := '"' :: (escapeStr s ++ ['"'])

/-- `JSON.stringify` of one filter field value. -/
def FVal.render : FVal → List Char
  | .fbool true => "true".data
  | .fbool false => "false".data
  | .fnum n => natDigits n
  | .fstr s => quoteStr s

def joinCommaRest : List (List Char) → List Char
  | [] => []
  | x :: xs => ',' :: (x ++ joinCommaRest xs)

/-- Comma-separated concatenation, as `JSON.stringify` lays out properties. -/
def joinComma : List (List Char) → List Char
  | [] => []
  | x :: xs => x ++ joinCommaRest xs

/-- `JSON.stringify(filters)`: the properties in insertion order, each as
`"key":value`, comma-separated, in braces. -/
def jsonStringifyF (o : FilterObj) : List Char :=
  Char.ofNat 123 :: (joinComma (o.map (fun kv => quoteStr kv.1 ++ ':' :: kv.2.render))
    ++ [Char.ofNat 125])

/-- The cache key `JSON.stringify(filters)` computed by `getJobs` for a
filters object whose fields were set in the tool layer's canonical order. -/
def cacheKeyOf (f : JobFilters) : List Char := jsonStringifyF (filtersToObj f)

/-! A reference parser for the cache key, used only to prove that
`jsonStringifyF` is injective on canonically ordered filter objects: it is a
left inverse of the rendering (`parseFilters_cacheKeyOf`). -/

/-- Consume an exact literal prefix. -/
def parseLit : List Char → List Char → Option (List Char)
  | [], s => some s
  | _ :: _, [] => none
  | c :: lit, d :: s => if c = d then parseLit lit s else none

def parseBoolTok (s : List Char) : Option (Bool × List Char) :=
  match parseLit "true".data s with
  | some r => some (true, r)
  | none =>
      match parseLit "false".data s with
      | some r => some (false, r)
      | none => none

def readDigits : List Char → Nat → Nat × List Char
  | [], acc => (acc, [])
  | c :: s, acc =>
      if isDigitCh c then readDigits s (acc * 10 + (c.toNat - 48))
      else (acc, c :: s)

def parseNatTok : List Char → Option (Nat × List Char)
  | [] => none
  | c :: s => if isDigitCh c then some (readDigits s (c.toNat - 48)) else none

def unescapeChar (e : Char) : Char :=
  if e = 'n' then '\n'
  else if e = 't' then '\t'
  else if e = 'r' then '\r'
  else if e = 'b' then Char.ofNat 8
  else if e = 'f' then Char.ofNat 12
  else e

def hexVal (c : Char) : Nat :=
  if c.toNat ≤ 57 then c.toNat - 48 else c.toNat - 87

/-- Read a JSON string body up to the closing quote, undoing the escapes
`escapeChar` produces. -/
def readStrBody : List Char → Option (List Char × List Char)
  | [] => none
  | c :: rest =>
      if c = '"' then some ([], rest)
      else if c = '\\' then
        match rest with
        | 'u' :: a :: b :: c2 :: d :: rest' =>
            (readStrBody rest').map (fun p =>
              (Char.ofNat (((hexVal a * 16 + hexVal b) * 16 + hexVal c2) * 16 +
                hexVal d) :: p.1, p.2))
        | e :: rest' => (readStrBody rest').map (fun p => (unescapeChar e :: p.1, p.2))
        | [] => none
      else (readStrBody rest).map (fun p => (c :: p.1, p.2))

def parseStrTok : List Char → Option (List Char × List Char)
  | [] => none
  | c :: rest => if c = '"' then readStrBody rest else none

/-- Drop one leading comma if present. -/
def skipComma : List Char → List Char
  | [] => []
  | c :: r => if c = ',' then r else c :: r

/-- Try to consume the field `"name":` followed by a boolean value. -/
def tryFieldB (name : List Char) (s : List Char) : Option Bool × List Char :=
  match parseLit (quoteStr name ++ [':']) s with
  | none => (none, s)
  | some r =>
      match parseBoolTok r with
      | none => (none, s)
      | some (b, r') => (some b, skipComma r')

def tryFieldN (name : List Char) (s : List Char) : Option Nat × List Char :=
  match parseLit (quoteStr name ++ [':']) s with
  | none => (none, s)
  | some r =>
      match parseNatTok r with
      | none => (none, s)
      | some (n, r') => (some n, skipComma r')

def tryFieldS (name : List Char) (s : List Char) :
    Option (List Char) × List Char :=
  match parseLit (quoteStr name ++ [':']) s with
  | none => (none, s)
  | some r =>
      match parseStrTok r with
      | none => (none, s)
      | some (v, r') => (some v, skipComma r')

/-- Parse a cache key back into the filters record. -/
def parseFilters (s : List Char) : Option JobFilters :=
  match s with
  | [] => none
  | c :: s0 =>
      if c = Char.ofNat 123 then
        let (remote, s1) := tryFieldB "remote".data s0
        let (limit, s2) := tryFieldN "limit".data s1
        let (country, s3) := tryFieldS "country".data s2
        let (tag, s4) := tryFieldS "tag".data s3
        let (sd, s5) := tryFieldB "show_description".data s4
        match s5 with
        | [cc] =>
            if cc = Char.ofNat 125 then some ⟨remote, limit, country, tag, sd⟩
            else none
        | _ => none
      else none

/-- The rendered body of the cache key after the opening brace. -/
def renderBody (f : JobFilters) : List Char :=
  joinComma ((filtersToObj f).map (fun kv => quoteStr kv.1 ++ ':' :: kv.2.render))
    ++ [Char.ofNat 125]

/-! ## Request parameters (api.ts lines 87-95) -/

/-- A query-parameter value (`Record<string, string | number | boolean>`). -/
inductive ParamVal where
  | pstr (s : List Char)
  | pnum (n : Nat)
  deriving DecidableEq

/-- `if (filters.remote) params.remote = "true"`: included only when the
field is truthy, i.e. present and `true`. -/
def remoteParam : Option Bool → List (List Char × ParamVal)
  | some true => [("remote".data, .pstr "true".data)]
  | _ => []

/-- `if (filters.limit) params.limit = filters.limit`: a number is truthy
unless it is zero. -/
def limitParam : Option Nat → List (List Char × ParamVal)
  | some n => if n = 0 then [] else [("limit".data, .pnum n)]
  | none => []

/-- `if (filters.country) params.country = filters.country` (same for `tag`):
a string is truthy unless it is empty. -/
def strParam (key : List Char) : Option (List Char) → List (List Char × ParamVal)
  | some s => if s.isEmpty then [] else [(key, .pstr s)]
  | none => []

/-- `if (filters.show_description === false) params.show_description = "false"`. -/
def showDescParam : Option Bool → List (List Char × ParamVal)
  | some false => [("show_description".data, .pstr "false".data)]
  | _ => []

/-- The `params` record built before the HTTP call (api.ts lines 87-95):
`token` always, then the five conditional properties in source order. -/
def buildParams (token : List Char) (f : JobFilters) : List (List Char × ParamVal) :=
  [("token".data, .pstr token)]
  ++ remoteParam f.remote
  ++ limitParam f.limit
  ++ strParam "country".data f.country
  ++ strParam "tag".data f.tag
  ++ showDescParam f.show_description

/-! ## getJobs (api.ts lines 78-160)

The HTTP GET of each attempt is abstracted by `upstream`; `now` is the
`Date.now()` of the call.  Returns the result, the cache after the call, and
the number of network attempts performed. -/

def Web3CareerService.getJobs (upstream : Nat → Except FetchError JVal)
    (now : Nat) (filters : JobFilters) (cache : CacheMap (List Job)) :
    Except ApiFailure (List Job) × CacheMap (List Job) × Nat :=
  let cacheKey := cacheKeyOf filters
  match SimpleCache.get now cache cacheKey with
  | (some cached, cache') => (.ok cached, cache', 0)
  | (none, cache') =>
      match Web3CareerService.fetchWithRetry upstream MAX_RETRIES with
      | (.error e, n) => (.error (.fetchFailed e), cache', n)
      | (.ok data, n) =>
          match normalizeResponse data with
          | .error err => (.error err, cache', n)
          | .ok jobs =>
              (.ok jobs, SimpleCache.set now CACHE_TTL_MS cache' cacheKey jobs, n)

/-! # Claims -/

/-- Claim C4: `isRetryableError` returns true exactly for HTTP 429, any HTTP
status ≥ 500, and a transport failure where the request was sent but no
response was received; it is false for 400, 401, 403, 404 and for non-HTTP
(malformed-response) errors. -/
theorem claim_C4 :
    (∀ e, Web3CareerService.isRetryableError e = true ↔
      (e = .http 429 ∨ (∃ s, e = .http s ∧ 500 ≤ s) ∨ e = .network true)) ∧
    Web3CareerService.isRetryableError (.http 400) = false ∧
    Web3CareerService.isRetryableError (.http 401) = false ∧
    Web3CareerService.isRetryableError (.http 403) = false ∧
    Web3CareerService.isRetryableError (.http 404) = false ∧
    Web3CareerService.isRetryableError .other = false := by
  refine ⟨?_, by decide, by decide, by decide, by decide, by decide⟩
  intro e
  cases e with
  | http s =>
      simp only [Web3CareerService.isRetryableError, Bool.or_eq_true, beq_iff_eq,
        decide_eq_true_eq]
      constructor
      · rintro (h | h)
        · exact Or.inl (by rw [h])
        · exact Or.inr (Or.inl ⟨s, rfl, h⟩)
      · rintro (h | ⟨s', hs', h⟩ | h)
        · injection h with h; omega
        · injection hs' with hs'; subst hs'; omega
        · cases h
  | network sent =>
      cases sent <;> simp [Web3CareerService.isRetryableError]
  | other => simp [Web3CareerService.isRetryableError]

/-- Claim C4 witness: HTTP 503 is retryable, via the characterization. -/
theorem claim_C4_witness : Web3CareerService.isRetryableError (.http 503) = true :=
  (claim_C4.1 _).mpr (Or.inr (Or.inl ⟨503, rfl, by omega⟩))

theorem baseDelay_dvd (a : Nat) : 5 ∣ baseDelay a := by
  rw [baseDelay, Nat.min_def]
  split
  · exact Dvd.dvd.mul_right (by norm_num [INITIAL_RETRY_DELAY_MS]) _
  · norm_num [MAX_RETRY_DELAY_MS]

theorem baseDelay_mono (a : Nat) : baseDelay a ≤ baseDelay (a + 1) := by
  have h : INITIAL_RETRY_DELAY_MS * 2 ^ a ≤ INITIAL_RETRY_DELAY_MS * 2 ^ (a + 1) := by
    have : (2 : Nat) ^ a ≤ 2 ^ (a + 1) := Nat.pow_le_pow_right (by omega) (by omega)
    exact Nat.mul_le_mul_left _ this
  exact min_le_min h le_rfl

theorem baseDelay_le (a : Nat) : baseDelay a ≤ 10000 :=
  min_le_right _ _

/-- Claim C5: with `base = min(1000·2^a, 10000)` and a jitter draw
`j ∈ [-1, 1]`, the delay is `⌊base + base·0.2·j⌋`; it lies within ±20% of
`base`, is pointwise (hence in expectation) non-decreasing from one attempt to
the next, and never exceeds `maxDelay · 1.2 = 12000` ms. -/
theorem claim_C5 (a : Nat) (j : ℚ) (h1 : -1 ≤ j) (h2 : j ≤ 1) :
    nextDelay a j =
      ⌊((min (1000 * 2 ^ a) 10000 : Nat) : ℚ) +
        ((min (1000 * 2 ^ a) 10000 : Nat) : ℚ) * (1 / 5) * j⌋ ∧
    (baseDelay a : ℚ) * (4 / 5) ≤ (nextDelay a j : ℚ) ∧
    (nextDelay a j : ℚ) ≤ (baseDelay a : ℚ) * (6 / 5) ∧
    nextDelay a j ≤ 12000 ∧
    nextDelay a j ≤ nextDelay (a + 1) j := by
  have hb0 : (0 : ℚ) ≤ (baseDelay a : ℚ) := by positivity
  have hx_ge : (baseDelay a : ℚ) * (4 / 5) ≤
      (baseDelay a : ℚ) + (baseDelay a : ℚ) * (1 / 5) * j := by nlinarith
  have hx_le : (baseDelay a : ℚ) + (baseDelay a : ℚ) * (1 / 5) * j ≤
      (baseDelay a : ℚ) * (6 / 5) := by nlinarith
  refine ⟨rfl, ?_, ?_, ?_, ?_⟩
  · obtain ⟨k, hk⟩ := baseDelay_dvd a
    have hfloor : ((4 * k : ℤ) : ℚ) ≤
        (baseDelay a : ℚ) + (baseDelay a : ℚ) * (1 / 5) * j := by
      have : ((4 * k : ℤ) : ℚ) = (baseDelay a : ℚ) * (4 / 5) := by
        push_cast [hk]; ring
      rw [this]; exact hx_ge
    have := Int.le_floor.mpr hfloor
    rw [nextDelay]
    calc (baseDelay a : ℚ) * (4 / 5) = ((4 * k : ℤ) : ℚ) := by push_cast [hk]; ring
    _ ≤ _ := by exact_mod_cast this
  · calc ((nextDelay a j : ℤ) : ℚ) ≤ _ := Int.floor_le _
    _ ≤ (baseDelay a : ℚ) * (6 / 5) := hx_le
  · rw [nextDelay]
    have h10000 : (baseDelay a : ℚ) ≤ 10000 := by exact_mod_cast baseDelay_le a
    have : (baseDelay a : ℚ) + (baseDelay a : ℚ) * (1 / 5) * j ≤ 12000 := by nlinarith
    have hle := Int.floor_le_floor this
    simpa using hle
  · rw [nextDelay, nextDelay]
    apply Int.floor_le_floor
    have hmono : (baseDelay a : ℚ) ≤ (baseDelay (a + 1) : ℚ) := by
      exact_mod_cast baseDelay_mono a
    nlinarith

/-- Claim C5 witness: the bounds at attempt 0 with jitter draw 0. -/
theorem claim_C5_witness :
    nextDelay 0 0 =
      ⌊((min (1000 * 2 ^ 0) 10000 : Nat) : ℚ) +
        ((min (1000 * 2 ^ 0) 10000 : Nat) : ℚ) * (1 / 5) * 0⌋ ∧
    (baseDelay 0 : ℚ) * (4 / 5) ≤ (nextDelay 0 0 : ℚ) ∧
    (nextDelay 0 0 : ℚ) ≤ (baseDelay 0 : ℚ) * (6 / 5) ∧
    nextDelay 0 0 ≤ 12000 ∧
    nextDelay 0 0 ≤ nextDelay 1 0 :=
  claim_C5 0 0 (by norm_num) (by norm_num)

theorem mem_remoteParam (x : List Char × ParamVal) (r : Option Bool) :
    x ∈ remoteParam r ↔ r = some true ∧ x = ("remote".data, .pstr "true".data) := by
  rcases r with _ | (_ | _) <;> simp [remoteParam]

theorem mem_limitParam (x : List Char × ParamVal) (l : Option Nat) :
    x ∈ limitParam l ↔ ∃ n, l = some n ∧ n ≠ 0 ∧ x = ("limit".data, .pnum n) := by
  rcases l with _ | n
  · simp [limitParam]
  · by_cases hn : n = 0 <;> simp [limitParam, hn]

theorem mem_strParam (x : List Char × ParamVal) (key : List Char)
    (v : Option (List Char)) :
    x ∈ strParam key v ↔ ∃ s, v = some s ∧ s ≠ [] ∧ x = (key, .pstr s) := by
  rcases v with _ | s
  · simp [strParam]
  · by_cases hs : s.isEmpty <;>
      simp_all [strParam, List.isEmpty_iff]

theorem mem_showDescParam (x : List Char × ParamVal) (sd : Option Bool) :
    x ∈ showDescParam sd ↔
      sd = some false ∧ x = ("show_description".data, .pstr "false".data) := by
  rcases sd with _ | (_ | _) <;> simp [showDescParam]

/-- Claim C10: a filters value with `country` (or `tag`) set to the empty
string yields exactly the request-parameter map built when the field is
absent; each of `remote`, `limit`, `country`, `tag` is included only when
truthy, `token` is always included, and `show_description: "false"` is
included exactly when `show_description` is explicitly `false`. -/
theorem claim_C10 (token : List Char) (f : JobFilters) :
    buildParams token { f with country := some [] } =
      buildParams token { f with country := none } ∧
    buildParams token { f with tag := some [] } =
      buildParams token { f with tag := none } ∧
    ("token".data, ParamVal.pstr token) ∈ buildParams token f ∧
    (("remote".data, ParamVal.pstr "true".data) ∈ buildParams token f ↔
      f.remote = some true) ∧
    (∀ n, ("limit".data, ParamVal.pnum n) ∈ buildParams token f ↔
      f.limit = some n ∧ n ≠ 0) ∧
    (∀ s, ("country".data, ParamVal.pstr s) ∈ buildParams token f ↔
      f.country = some s ∧ s ≠ []) ∧
    (∀ s, ("tag".data, ParamVal.pstr s) ∈ buildParams token f ↔
      f.tag = some s ∧ s ≠ []) ∧
    (("show_description".data, ParamVal.pstr "false".data) ∈ buildParams token f ↔
      f.show_description = some false) := by
  obtain ⟨r, l, c, t, sd⟩ := f
  refine ⟨rfl, rfl, ?_, ?_, ?_, ?_, ?_, ?_⟩ <;>
    simp [buildParams, mem_remoteParam, mem_limitParam, mem_strParam,
      mem_showDescParam]

/-- Claim C10 witness: the always-included `token` parameter at a concrete
filters value. -/
theorem claim_C10_witness :
    ("token".data, ParamVal.pstr "t".data) ∈
      buildParams "t".data ⟨some true, some 20, some [], none, some false⟩ :=
  (claim_C10 "t".data ⟨some true, some 20, some [], none, some false⟩).2.2.1

theorem fetchWithRetryGo_count (upstream : Nat → Except FetchError JVal)
    (maxRetries : Nat) :
    ∀ fuel attempt, (fetchWithRetryGo upstream maxRetries attempt fuel).2 ≤
      attempt + fuel := by
  intro fuel
  induction fuel with
  | zero => intro attempt; simp [fetchWithRetryGo]
  | succ fuel ih =>
      intro attempt
      rw [fetchWithRetryGo]
      cases upstream attempt with
      | ok v => simp
      | error e =>
          simp only
          split
          · simp
          · have := ih (attempt + 1)
            omega

/-- Claim C3: `getJobs` makes at most `MAX_RETRIES + 1 = 4` network attempts;
with an upstream that replies 401 on every attempt it stops after exactly one
attempt, caches nothing, and the propagated error classifies as Unauthorized;
with an upstream that replies 503, 503, then 200 with payload it returns the
normalized list after exactly 3 attempts and stores it in the cache. -/
theorem claim_C3 :
    MAX_RETRIES = 3 ∧
    (∀ upstream now f cache,
      (Web3CareerService.getJobs upstream now f cache).2.2 ≤ MAX_RETRIES + 1) ∧
    (∀ now f,
      Web3CareerService.getJobs (fun _ => .error (.http 401)) now f
          SimpleCache.clear =
        (.error (.fetchFailed (.http 401)), SimpleCache.clear, 1) ∧
      classifyError (.fetchFailed (.http 401)) = .unauthorized) ∧
    (∀ payload jobs now f, normalizeResponse payload = .ok jobs →
      Web3CareerService.getJobs
          (fun i => if i < 2 then .error (.http 503) else .ok payload) now f
          SimpleCache.clear =
        (.ok jobs, [(cacheKeyOf f, ⟨jobs, now + CACHE_TTL_MS⟩)], 3)) := by
  refine ⟨rfl, ?_, ?_, ?_⟩
  · intro upstream now f cache
    have hcount := fetchWithRetryGo_count upstream MAX_RETRIES (MAX_RETRIES + 1) 0
    rw [Web3CareerService.getJobs]
    split
    · simp
    · split
      · rename_i heq
        have : (Web3CareerService.fetchWithRetry upstream MAX_RETRIES).2 ≤
            MAX_RETRIES + 1 := by simpa [Web3CareerService.fetchWithRetry] using hcount
        rw [heq] at this
        simpa using this
      · rename_i heq
        have : (Web3CareerService.fetchWithRetry upstream MAX_RETRIES).2 ≤
            MAX_RETRIES + 1 := by simpa [Web3CareerService.fetchWithRetry] using hcount
        rw [heq] at this
        split <;> simpa using this
  · intro now f
    exact ⟨rfl, rfl⟩
  · intro payload jobs now f h
    have hg : Web3CareerService.getJobs
        (fun i => if i < 2 then .error (.http 503) else .ok payload) now f
        SimpleCache.clear =
        (match normalizeResponse payload with
         | .error err => (.error err, SimpleCache.clear, 3)
         | .ok js =>
             (.ok js, SimpleCache.set now CACHE_TTL_MS SimpleCache.clear
               (cacheKeyOf f) js, 3)) := rfl
    rw [hg, h]
    rfl

/-- Claim C3 witness: the 503/503/200 scenario at a concrete payload whose
normalization succeeds with the empty job list. -/
theorem claim_C3_witness :
    Web3CareerService.getJobs
        (fun i => if i < 2 then .error (.http 503) else .ok (JVal.jarr [JVal.jarr []]))
        0 ⟨none, none, none, none, none⟩ SimpleCache.clear =
      (.ok [], [(cacheKeyOf ⟨none, none, none, none, none⟩, ⟨[], 0 + CACHE_TTL_MS⟩)], 3) :=
  claim_C3.2.2.2 (JVal.jarr [JVal.jarr []]) [] 0 ⟨none, none, none, none, none⟩ rfl

theorem mapGet_mapSet_self {α : Type} (m : CacheMap α) (k : List Char)
    (e : CacheEntry α) : mapGet (mapSet m k e) k = some e := by
  induction m with
  | nil => simp [mapSet, mapGet]
  | cons kv rest ih =>
      obtain ⟨k', e'⟩ := kv
      rw [mapSet]
      by_cases hk : k' = k
      · simp [hk, mapGet]
      · simp [hk, mapGet, ih]

theorem mapDelete_cons {α : Type} (k0 : List Char) (e0 : CacheEntry α)
    (rest : CacheMap α) (k : List Char) :
    mapDelete ((k0, e0) :: rest) k =
      if k0 = k then mapDelete rest k else (k0, e0) :: mapDelete rest k := by
  rw [mapDelete, mapDelete, List.filter_cons]
  by_cases h : k0 = k <;> simp [h]

theorem mapGet_mapDelete_self {α : Type} (m : CacheMap α) (k : List Char) :
    mapGet (mapDelete m k) k = none := by
  induction m with
  | nil => simp [mapDelete, mapGet]
  | cons kv rest ih =>
      obtain ⟨k0, e0⟩ := kv
      rw [mapDelete_cons]
      by_cases hk : k0 = k
      · rw [if_pos hk]
        exact ih
      · rw [if_neg hk, mapGet, if_neg hk]
        exact ih

theorem mapGet_mapDelete_ne {α : Type} (m : CacheMap α) (k k' : List Char)
    (hne : k' ≠ k) : mapGet (mapDelete m k) k' = mapGet m k' := by
  induction m with
  | nil => simp [mapDelete, mapGet]
  | cons kv rest ih =>
      obtain ⟨k0, e0⟩ := kv
      rw [mapDelete_cons]
      by_cases hk : k0 = k
      · rw [if_pos hk, ih, mapGet,
          if_neg (fun hh => hne (by rw [← hh, hk]))]
      · rw [if_neg hk, mapGet, mapGet]
        by_cases hk' : k0 = k' <;> simp [hk', ih]

/-- A successful `getJobs` leaves (or creates) a live entry holding the
returned list under the computed cache key. -/
theorem getJobs_ok_cacheEntry (up : Nat → Except FetchError JVal) (now : Nat)
    (f : JobFilters) (cache c1 : CacheMap (List Job)) (L : List Job) (n : Nat)
    (h : Web3CareerService.getJobs up now f cache = (.ok L, c1, n)) :
    ∃ exp, now ≤ exp ∧ mapGet c1 (cacheKeyOf f) = some ⟨L, exp⟩ := by
  rw [Web3CareerService.getJobs] at h
  split at h
  · rename_i cached cache' heq
    rw [SimpleCache.get] at heq
    split at heq
    · simp at heq
    · rename_i item hitem
      split at heq
      · simp at heq
      · rename_i hexp
        simp only [Prod.mk.injEq, Option.some.injEq, Except.ok.injEq] at h heq
        obtain ⟨h1, h2, -⟩ := h
        obtain ⟨g1, g2⟩ := heq
        refine ⟨item.expiry, by omega, ?_⟩
        rw [← h2, ← g2, hitem, ← h1, ← g1]
  · rename_i cache' heq
    split at h
    · simp at h
    · split at h
      · simp at h
      · rename_i jobs hnorm
        simp only [Prod.mk.injEq, Except.ok.injEq] at h
        obtain ⟨h1, h2, -⟩ := h
        refine ⟨now + CACHE_TTL_MS, by omega, ?_⟩
        rw [← h2, ← h1, SimpleCache.set]
        exact mapGet_mapSet_self ..

/-- A call that finds a live entry returns it at once: the cache is untouched
and no network attempt happens. -/
theorem getJobs_hit (up : Nat → Except FetchError JVal) (now : Nat)
    (f : JobFilters) (cache : CacheMap (List Job)) (L : List Job) (exp : Nat)
    (hmem : mapGet cache (cacheKeyOf f) = some ⟨L, exp⟩) (hlive : now ≤ exp) :
    Web3CareerService.getJobs up now f cache = (.ok L, cache, 0) := by
  rw [Web3CareerService.getJobs]
  have hget : SimpleCache.get now cache (cacheKeyOf f) = (some L, cache) := by
    rw [SimpleCache.get, hmem]
    show (if now > exp then (none, mapDelete cache (cacheKeyOf f))
      else (some L, cache)) = (some L, cache)
    rw [if_neg (Nat.not_lt.mpr hlive)]
  rw [hget]

/-- Claim C1: if `getJobs(F)` succeeds with list `L`, the cache afterwards
holds a live entry `⟨L, exp⟩` under the key of `F`, and any second
`getJobs(F)` on that cache at a time at or before `exp` (in particular within
the 5-minute TTL of an entry stored by a cache-miss call, whose `exp` is the
store time plus `CACHE_TTL_MS`) returns the identical list, leaves the cache
unchanged, and performs zero network attempts and zero retry iterations. -/
theorem claim_C1 (up1 up2 : Nat → Except FetchError JVal) (now1 : Nat)
    (f : JobFilters) (cache c1 : CacheMap (List Job)) (L : List Job) (n : Nat)
    (h : Web3CareerService.getJobs up1 now1 f cache = (.ok L, c1, n)) :
    ∃ exp, mapGet c1 (cacheKeyOf f) = some ⟨L, exp⟩ ∧ now1 ≤ exp ∧
      ∀ now2, now2 ≤ exp →
        Web3CareerService.getJobs up2 now2 f c1 = (.ok L, c1, 0) := by
  obtain ⟨exp, hle, hmem⟩ := getJobs_ok_cacheEntry up1 now1 f cache c1 L n h
  exact ⟨exp, hmem, hle, fun now2 h2 => getJobs_hit up2 now2 f c1 L exp hmem h2⟩

/-- Claim C1 witness: a concrete cache holding a live entry for the empty
filter set; the call returns it unchanged with zero attempts. -/
theorem claim_C1_witness :
    Web3CareerService.getJobs (fun _ => .error (.http 500)) 100
        ⟨none, none, none, none, none⟩
        [(cacheKeyOf ⟨none, none, none, none, none⟩, ⟨[], CACHE_TTL_MS⟩)] =
      (.ok [], [(cacheKeyOf ⟨none, none, none, none, none⟩, ⟨[], CACHE_TTL_MS⟩)], 0) := by
  obtain ⟨exp, hmem, -, hsec⟩ :=
    claim_C1 (fun _ => .ok (JVal.jarr [JVal.jarr []])) (fun _ => .error (.http 500))
      0 ⟨none, none, none, none, none⟩ []
      [(cacheKeyOf ⟨none, none, none, none, none⟩, ⟨[], CACHE_TTL_MS⟩)] [] 1 rfl
  have hexp : exp = CACHE_TTL_MS := by
    rw [mapGet, if_pos rfl] at hmem
    injection hmem with hmem
    exact (congrArg CacheEntry.expiry hmem).symm
  exact hsec 100 (by rw [hexp]; norm_num [CACHE_TTL_MS])

/-- Claim C9 (amended): a failing `getJobs` never stores anything — every
live entry survives verbatim, no key gains an entry, and afterwards there is
no entry at the looked-up key (so a subsequent call with the same filters
performs a fresh fetch).  The one cache change a failing call can make is the
lazy deletion, inside `SimpleCache.get`, of an already-expired entry at the
looked-up key. -/
theorem claim_C9 (up : Nat → Except FetchError JVal) (now : Nat)
    (f : JobFilters) (cache c1 : CacheMap (List Job)) (err : ApiFailure) (n : Nat)
    (h : Web3CareerService.getJobs up now f cache = (.error err, c1, n)) :
    mapGet c1 (cacheKeyOf f) = none ∧
    (∀ k, k ≠ cacheKeyOf f → mapGet c1 k = mapGet cache k) ∧
    (∀ k ent, mapGet cache k = some ent → now ≤ ent.expiry →
      mapGet c1 k = some ent) := by
  have hcases : (mapGet cache (cacheKeyOf f) = none ∧ c1 = cache) ∨
      (∃ item, mapGet cache (cacheKeyOf f) = some item ∧ item.expiry < now ∧
        c1 = mapDelete cache (cacheKeyOf f)) := by
    rw [Web3CareerService.getJobs] at h
    split at h
    · simp at h
    · rename_i cache' heq
      have hc' : c1 = cache' := by
        split at h
        · simp only [Prod.mk.injEq] at h
          exact h.2.1.symm
        · split at h
          · simp only [Prod.mk.injEq] at h
            exact h.2.1.symm
          · simp at h
      rw [SimpleCache.get] at heq
      split at heq
      · rename_i hnone
        simp only [Prod.mk.injEq] at heq
        exact Or.inl ⟨hnone, hc'.trans heq.2.symm⟩
      · rename_i item hitem
        split at heq
        · rename_i hgt
          simp only [Prod.mk.injEq] at heq
          exact Or.inr ⟨item, hitem, by omega, hc'.trans heq.2.symm⟩
        · simp at heq
  rcases hcases with ⟨hnone, rfl⟩ | ⟨item, hitem, hgt, rfl⟩
  · exact ⟨hnone, fun _ _ => rfl, fun _ _ hk _ => hk⟩
  · refine ⟨mapGet_mapDelete_self .., fun k hk => mapGet_mapDelete_ne cache _ k hk, ?_⟩
    intro k ent hk hlive
    by_cases hkk : k = cacheKeyOf f
    · subst hkk
      rw [hk] at hitem
      injection hitem with hitem
      subst hitem
      omega
    · rw [mapGet_mapDelete_ne cache _ k hkk]
      exact hk

/-- Claim C9 counterexample: a failing `getJobs` CAN change the cache.  With
an expired entry stored under the key of the empty filter set and an upstream
that answers 400, the call fails — yet the input cache had one entry and the
cache after the call has none: the expired entry was removed by the lookup,
contradicting "no entry is added, overwritten, or removed". -/
theorem claim_C9_counterexample :
    Web3CareerService.getJobs (fun _ => .error (.http 400)) 1
        ⟨none, none, none, none, none⟩
        [(cacheKeyOf ⟨none, none, none, none, none⟩, ⟨[], 0⟩)] =
      (.error (.fetchFailed (.http 400)), ([] : CacheMap (List Job)), 1) ∧
    ([(cacheKeyOf ⟨none, none, none, none, none⟩,
        (⟨[], 0⟩ : CacheEntry (List Job)))] : CacheMap (List Job)).length = 1 ∧
    ([] : CacheMap (List Job)).length = 0 :=
  ⟨rfl, rfl, rfl⟩

/-- Claim C9 witness: the amended guarantee applied to a concrete failing
call on the empty cache. -/
theorem claim_C9_witness :
    mapGet ([] : CacheMap (List Job)) (cacheKeyOf ⟨none, none, none, none, none⟩) =
      none :=
  (claim_C9 (fun _ => .error (.http 400)) 0 ⟨none, none, none, none, none⟩ [] []
    (.fetchFailed (.http 400)) 1 rfl).1

/-- Claim C6: normalization of a successful payload fails exactly when the
outer shape cannot be located — the payload is not an array, or it is an
array (possibly empty) with no array element whose first element is not a
non-null mapping.  In particular `{"foo":"bar"}` fails, and once a job list
is located no individual element can make the call fail. -/
theorem claim_C6 :
    (∀ data : JVal, (∃ err, normalizeResponse data = .error err) ↔
      (data.isArr = false ∨
        ∃ items, data = .jarr items ∧ items.find? JVal.isArr = none ∧
          (items = [] ∨ ∀ kvs, items.head? ≠ some (.jobj kvs)))) ∧
    normalizeResponse (.jobj [("foo".data, .jstr "bar".data)]) = .error .notArray ∧
    (∀ items js, items.find? JVal.isArr = some (.jarr js) →
      normalizeResponse (.jarr items) = .ok (js.map processJob)) := by
  refine ⟨?_, rfl, ?_⟩
  · intro data
    cases data with
    | jarr items =>
        simp only [normalizeResponse]
        cases hfind : items.find? JVal.isArr with
        | some v =>
            have hv : JVal.isArr v = true := List.find?_some hfind
            cases v with
            | jarr js =>
                constructor
                · rintro ⟨err, herr⟩
                  cases herr
                · rintro (habs | ⟨items', heq, hfind', -⟩)
                  · simp [JVal.isArr] at habs
                  · injection heq with heq
                    subst heq
                    rw [hfind] at hfind'
                    cases hfind'
            | jnull => simp [JVal.isArr] at hv
            | jbool b => simp [JVal.isArr] at hv
            | jnum n => simp [JVal.isArr] at hv
            | jstr s => simp [JVal.isArr] at hv
            | jobj kvs => simp [JVal.isArr] at hv
        | none =>
            cases items with
            | nil =>
                constructor
                · intro _
                  exact Or.inr ⟨[], rfl, hfind, Or.inl rfl⟩
                · intro _
                  exact ⟨.noJobsArray, rfl⟩
            | cons first rest =>
                have hfirst : JVal.isArr first = false := by
                  rw [List.find?_cons] at hfind
                  cases hh : JVal.isArr first
                  · rfl
                  · rw [hh] at hfind; cases hfind
                show (∃ err,
                    (if (first.jsTypeofObject && !first.isNull) = true then
                        Except.ok (List.map processJob (first :: rest))
                      else Except.error ApiFailure.noJobsArray) =
                      Except.error err) ↔ _
                by_cases hcond :
                    (first.jsTypeofObject && !first.isNull) = true
                · rw [if_pos hcond]
                  have hobj : ∃ kvs, first = .jobj kvs := by
                    cases first with
                    | jobj kvs => exact ⟨kvs, rfl⟩
                    | jnull => simp [JVal.isNull] at hcond
                    | jarr xs => simp [JVal.isArr] at hfirst
                    | jbool b => simp [JVal.jsTypeofObject] at hcond
                    | jnum n => simp [JVal.jsTypeofObject] at hcond
                    | jstr s => simp [JVal.jsTypeofObject] at hcond
                  obtain ⟨kvs, rfl⟩ := hobj
                  constructor
                  · rintro ⟨err, herr⟩
                    cases herr
                  · rintro (habs | ⟨items', heq, hfind', hh⟩)
                    · simp [JVal.isArr] at habs
                    · injection heq with heq
                      subst heq
                      rcases hh with hnil | hhead
                      · cases hnil
                      · exact absurd rfl (hhead kvs)
                · rw [if_neg hcond]
                  constructor
                  · intro _
                    refine Or.inr ⟨first :: rest, rfl, hfind, Or.inr ?_⟩
                    intro kvs hk
                    injection hk with hk
                    subst hk
                    simp [JVal.jsTypeofObject, JVal.isNull] at hcond
                  · intro _
                    exact ⟨.noJobsArray, rfl⟩
    | jnull => exact ⟨fun _ => Or.inl rfl, fun _ => ⟨.notArray, rfl⟩⟩
    | jbool b => exact ⟨fun _ => Or.inl rfl, fun _ => ⟨.notArray, rfl⟩⟩
    | jnum n => exact ⟨fun _ => Or.inl rfl, fun _ => ⟨.notArray, rfl⟩⟩
    | jstr s => exact ⟨fun _ => Or.inl rfl, fun _ => ⟨.notArray, rfl⟩⟩
    | jobj kvs => exact ⟨fun _ => Or.inl rfl, fun _ => ⟨.notArray, rfl⟩⟩
  · intro items js hfind
    simp only [normalizeResponse, hfind]

/-- Claim C6 witness: the payload `{"foo":"bar"}` at the concrete input. -/
theorem claim_C6_witness :
    normalizeResponse (.jobj [("foo".data, .jstr "bar".data)]) = .error .notArray :=
  claim_C6.2.1

theorem digitChar_isDigit : ∀ d, d < 10 → isDigitCh (digitChar d) = true := by decide

theorem natDigits_head (n : Nat) :
    ∃ d rest, natDigits n = digitChar d :: rest ∧ d < 10 := by
  induction n using Nat.strong_induction_on with
  | _ n ih =>
      rw [natDigits_eq]
      by_cases h10 : n < 10
      · exact ⟨n, [], by rw [if_pos h10], h10⟩
      · obtain ⟨d, rest, heq, hd⟩ := ih (n / 10) (Nat.div_lt_self (by omega) (by omega))
        exact ⟨d, rest ++ [digitChar (n % 10)], by rw [if_neg h10, heq]; rfl, hd⟩

theorem natDigits_not_known (i : Nat) : natDigits i ∉ knownJobKeys := by
  obtain ⟨d, rest, heq, hd⟩ := natDigits_head i
  intro hmem
  rw [knownJobKeys] at hmem
  simp only [List.mem_cons, List.not_mem_nil, or_false] at hmem
  have hdig := digitChar_isDigit d hd
  rcases hmem with h|h|h|h|h|h|h|h|h|h <;>
    (rw [heq] at h
     have hh := congrArg List.head? h
     simp only [List.head?_cons] at hh
     injection hh with hh
     rw [hh] at hdig
     exact absurd hdig (by decide))

theorem natDigits_not_proto (i : Nat) : natDigits i ∉ objectPrototypeKeys := by
  obtain ⟨d, rest, heq, hd⟩ := natDigits_head i
  intro hmem
  rw [objectPrototypeKeys] at hmem
  simp only [List.mem_cons, List.not_mem_nil, or_false] at hmem
  have hdig := digitChar_isDigit d hd
  rcases hmem with h|h|h|h|h|h|h|h|h|h|h|h <;>
    (rw [heq] at h
     have hh := congrArg List.head? h
     simp only [List.head?_cons] at hh
     injection hh with hh
     rw [hh] at hdig
     exact absurd hdig (by decide))

theorem natDigits_not_inProcessed (i : Nat) : inProcessed (natDigits i) = false := by
  rw [inProcessed, Bool.or_eq_false_iff]
  constructor
  · simpa using natDigits_not_known i
  · simpa using natDigits_not_proto i

theorem objGet_eq_none {kvs : List (List Char × JVal)} {key : List Char}
    (h : ∀ kv ∈ kvs, kv.1 ≠ key) : objGet kvs key = none := by
  induction kvs with
  | nil => rfl
  | cons kv rest ih =>
      obtain ⟨k0, v0⟩ := kv
      rw [objGet, if_neg (h (k0, v0) (List.mem_cons_self _ _))]
      exact ih (fun kv hkv => h kv (List.mem_cons_of_mem _ hkv))

theorem objGet_enum_none (xs : List JVal) (key : List Char)
    (hkey : key ∈ knownJobKeys) :
    objGet (xs.enum.map (fun p => (natDigits p.1, p.2))) key = none := by
  apply objGet_eq_none
  intro kv hkv
  obtain ⟨p, -, rfl⟩ := List.mem_map.mp hkv
  intro hbad
  have hbad' : natDigits p.1 = key := hbad
  exact natDigits_not_known p.1 (hbad' ▸ hkey)

theorem bindStr_iff (o : Option JVal) (s : List Char) :
    o.bind JVal.asStr = some s ↔ o = some (.jstr s) := by
  cases o with
  | none => simp
  | some v => cases v <;> simp [JVal.asStr]

theorem bindBool_iff (o : Option JVal) (b : Bool) :
    o.bind JVal.asBool = some b ↔ o = some (.jbool b) := by
  cases o with
  | none => simp
  | some v => cases v <;> simp [JVal.asBool]

/-- Claim C8 (amended): normalization maps the located job list element-wise
(length and order preserved).  An element that is `null` or a primitive
becomes an empty `Job` record.  For an object element, each known field is
present iff its upstream value has the expected semantic type (wrong-typed
fields are dropped, not coerced), and a key outside the known field set is
copied through verbatim with its original value iff the `key in processed`
guard misses it — i.e. iff it also does not shadow an `Object.prototype`
property name; an upstream key such as `toString` or `constructor` is
silently dropped.  An array element, moreover, passes the JS `typeof` guard
and is processed as an index-keyed mapping: all known fields come out absent
and its elements are copied through under their decimal index keys. -/
theorem claim_C8 :
    (∀ data jobs, normalizeResponse data = .ok jobs →
      ∃ js : List JVal, jobs = js.map processJob) ∧
    (∀ js : List JVal, (js.map processJob).length = js.length) ∧
    (∀ v : JVal, v.jsTypeofObject = false ∨ v = .jnull → processJob v = emptyJob) ∧
    (∀ kvs : List (List Char × JVal),
      (∀ s, (processJob (.jobj kvs)).id = some s ↔
        objGet kvs "id".data = some (.jstr s)) ∧
      (∀ s, (processJob (.jobj kvs)).title = some s ↔
        objGet kvs "title".data = some (.jstr s)) ∧
      (∀ s, (processJob (.jobj kvs)).company = some s ↔
        objGet kvs "company".data = some (.jstr s)) ∧
      (∀ s, (processJob (.jobj kvs)).location = some s ↔
        objGet kvs "location".data = some (.jstr s)) ∧
      (∀ b, (processJob (.jobj kvs)).remote = some b ↔
        objGet kvs "remote".data = some (.jbool b)) ∧
      (∀ s, (processJob (.jobj kvs)).url = some s ↔
        objGet kvs "url".data = some (.jstr s)) ∧
      (∀ s, (processJob (.jobj kvs)).salary = some s ↔
        objGet kvs "salary".data = some (.jstr s)) ∧
      (∀ s, (processJob (.jobj kvs)).postedAt = some s ↔
        objGet kvs "postedAt".data = some (.jstr s)) ∧
      (∀ ts, (processJob (.jobj kvs)).tags = some ts ↔
        ∃ xs, objGet kvs "tags".data = some (.jarr xs) ∧
          ts = xs.filterMap JVal.asStr) ∧
      (∀ k v, (k, v) ∈ (processJob (.jobj kvs)).extra ↔
        ((k, v) ∈ kvs ∧ inProcessed k = false))) ∧
    (∀ xs : List JVal, processJob (.jarr xs) =
      { emptyJob with extra := xs.enum.map (fun p => (natDigits p.1, p.2)) }) := by
  refine ⟨?_, ?_, ?_, ?_, ?_⟩
  · intro data jobs h
    cases data with
    | jarr items =>
        simp only [normalizeResponse] at h
        cases hfind : items.find? JVal.isArr with
        | some v =>
            rw [hfind] at h
            cases v with
            | jarr js =>
                injection h with h
                exact ⟨js, h.symm⟩
            | jnull => cases h
            | jbool b => cases h
            | jnum n => cases h
            | jstr s => cases h
            | jobj kvs => cases h
        | none =>
            rw [hfind] at h
            cases items with
            | nil => cases h
            | cons first rest =>
                replace h : (if (first.jsTypeofObject && !first.isNull) = true then
                    Except.ok (List.map processJob (first :: rest))
                  else Except.error ApiFailure.noJobsArray) = Except.ok jobs := h
                by_cases hcond : (first.jsTypeofObject && !first.isNull) = true
                · rw [if_pos hcond] at h
                  injection h with h
                  exact ⟨first :: rest, h.symm⟩
                · rw [if_neg hcond] at h
                  cases h
    | jnull => cases h
    | jbool b => cases h
    | jnum n => cases h
    | jstr s => cases h
    | jobj kvs => cases h
  · intro js
    exact List.length_map js processJob
  · intro v hv
    cases v with
    | jnull => rfl
    | jbool b => rfl
    | jnum n => rfl
    | jstr s => rfl
    | jarr xs =>
        rcases hv with hv | hv
        · simp [JVal.jsTypeofObject] at hv
        · cases hv
    | jobj kvs =>
        rcases hv with hv | hv
        · simp [JVal.jsTypeofObject] at hv
        · cases hv
  · intro kvs
    refine ⟨fun s => bindStr_iff .., fun s => bindStr_iff ..,
      fun s => bindStr_iff .., fun s => bindStr_iff ..,
      fun b => bindBool_iff .., fun s => bindStr_iff ..,
      fun s => bindStr_iff .., fun s => bindStr_iff .., ?_, ?_⟩
    · intro ts
      show (match objGet kvs "tags".data with
        | some (.jarr xs) => some (xs.filterMap JVal.asStr)
        | _ => none) = some ts ↔ _
      cases hog : objGet kvs "tags".data with
      | none => simp
      | some v =>
          cases v with
          | jarr xs => simp [eq_comm]
          | jnull => simp
          | jbool b => simp
          | jnum n => simp
          | jstr s => simp
          | jobj kvs' => simp
    · intro k v
      show (k, v) ∈ kvs.filter (fun kv => !(inProcessed kv.1)) ↔ _
      rw [List.mem_filter]
      simp
  · intro xs
    have hfilter : (xs.enum.map (fun p => (natDigits p.1, p.2))).filter
        (fun kv => !(inProcessed kv.1)) =
        xs.enum.map (fun p => (natDigits p.1, p.2)) := by
      apply List.filter_eq_self.mpr
      intro kv hkv
      obtain ⟨p, -, rfl⟩ := List.mem_map.mp hkv
      simp [natDigits_not_inProcessed p.1]
    simp only [processJob, jsObjectEntries]
    rw [hfilter,
      objGet_enum_none xs "id".data (by simp [knownJobKeys]),
      objGet_enum_none xs "title".data (by simp [knownJobKeys]),
      objGet_enum_none xs "company".data (by simp [knownJobKeys]),
      objGet_enum_none xs "location".data (by simp [knownJobKeys]),
      objGet_enum_none xs "remote".data (by simp [knownJobKeys]),
      objGet_enum_none xs "url".data (by simp [knownJobKeys]),
      objGet_enum_none xs "salary".data (by simp [knownJobKeys]),
      objGet_enum_none xs "postedAt".data (by simp [knownJobKeys]),
      objGet_enum_none xs "tags".data (by simp [knownJobKeys]),
      objGet_enum_none xs "description".data (by simp [knownJobKeys])]
    rfl

/-- Claim C8 counterexample, two parts.  First, the element `[1]` — a JSON
array, not a mapping — does NOT become an empty Job record: the JS guard
`typeof job !== 'object'` lets arrays through, so its entries are copied as
extra fields under index keys; the first conjunct exhibits a full payload
whose located job list consists of exactly that element.  Second, the key
`toString` — outside the known field set, yet present on `Object.prototype` —
is NOT copied through verbatim: the object `{"toString": "x"}` carries it as
an own key with a value, but the processed job is the empty record, the
upstream value silently dropped by the `key in processed` guard. -/
theorem claim_C8_counterexample :
    (normalizeResponse (JVal.jarr [JVal.jarr [JVal.jarr [JVal.jnum 1]]]) =
      .ok [processJob (JVal.jarr [JVal.jnum 1])] ∧
    processJob (JVal.jarr [JVal.jnum 1]) ≠ emptyJob) ∧
    (objGet [("toString".data, JVal.jstr "x".data)] "toString".data =
      some (JVal.jstr "x".data) ∧
    "toString".data ∉ knownJobKeys ∧
    processJob (JVal.jobj [("toString".data, JVal.jstr "x".data)]) =
      emptyJob) := by
  refine ⟨⟨rfl, fun h => ?_⟩, rfl, by decide, rfl⟩
  have hlen : (processJob (JVal.jarr [JVal.jnum 1])).extra.length =
      emptyJob.extra.length := congrArg (fun j => j.extra.length) h
  exact absurd hlen (by decide)

/-- Claim C8 witness: a `null` element becomes the empty Job record. -/
theorem claim_C8_witness : processJob JVal.jnull = emptyJob :=
  claim_C8.2.2.1 JVal.jnull (Or.inr rfl)

theorem seekClose_subset : ∀ s r, seekClose s = some r → ∀ x ∈ r, x ∈ s := by
  intro s
  induction s with
  | nil => intro r h; simp [seekClose] at h
  | cons c rest ih =>
      intro r h x hx
      rw [seekClose] at h
      split at h
      · injection h with h
        subst h
        exact List.mem_cons_of_mem _ hx
      · exact List.mem_cons_of_mem _ (ih r h x hx)

theorem seekClose_none : ∀ s, seekClose s = none → '>' ∉ s := by
  intro s
  induction s with
  | nil => intro _; simp
  | cons c rest ih =>
      intro h
      rw [seekClose] at h
      split at h
      · cases h
      · rename_i hc
        simp only [List.mem_cons, not_or]
        exact ⟨fun hh => hc hh.symm, ih h⟩

theorem takeTag_subset : ∀ s r, takeTag s = some r → ∀ x ∈ r, x ∈ s := by
  intro s r h x hx
  cases s with
  | nil => simp [takeTag] at h
  | cons c rest =>
      rw [takeTag] at h
      split at h
      · cases h
      · exact List.mem_cons_of_mem _ (seekClose_subset rest r h x hx)

theorem mem_stripTags : ∀ s x, x ∈ stripTags s → x = ' ' ∨ x ∈ s := by
  suffices h : ∀ n s, s.length ≤ n → ∀ x, x ∈ stripTags s → x = ' ' ∨ x ∈ s by
    intro s x hx
    exact h s.length s le_rfl x hx
  intro n
  induction n with
  | zero =>
      intro s hlen x hx
      have : s = [] := List.eq_nil_of_length_eq_zero (by omega)
      subst this
      simp [stripTags, stripTagsAux] at hx
  | succ n ih =>
      intro s hlen x hx
      cases s with
      | nil => simp [stripTags, stripTagsAux] at hx
      | cons c rest =>
          simp only [List.length_cons] at hlen
          rw [stripTags_eq] at hx
          replace hx : x ∈ (if c = '<' then
              (match takeTag rest with
               | some rest' => ' ' :: stripTags rest'
               | none => '<' :: stripTags rest)
            else c :: stripTags rest) := hx
          by_cases hc : c = '<'
          · rw [if_pos hc] at hx
            cases htake : takeTag rest with
            | some rest' =>
                rw [htake] at hx
                replace hx : x ∈ ' ' :: stripTags rest' := hx
                rcases List.mem_cons.mp hx with hx | hx
                · exact Or.inl hx
                · have hlt := takeTag_length rest rest' htake
                  rcases ih rest' (by omega) x hx with hx | hx
                  · exact Or.inl hx
                  · exact Or.inr
                      (List.mem_cons_of_mem _ (takeTag_subset rest rest' htake x hx))
            | none =>
                rw [htake] at hx
                replace hx : x ∈ '<' :: stripTags rest := hx
                rcases List.mem_cons.mp hx with hx | hx
                · subst hx
                  exact Or.inr (hc ▸ List.mem_cons_self _ _)
                · rcases ih rest (by omega) x hx with hx | hx
                  · exact Or.inl hx
                  · exact Or.inr (List.mem_cons_of_mem _ hx)
          · rw [if_neg hc] at hx
            rcases List.mem_cons.mp hx with hx | hx
            · subst hx
              exact Or.inr (List.mem_cons_self _ _)
            · rcases ih rest (by omega) x hx with hx | hx
              · exact Or.inl hx
              · exact Or.inr (List.mem_cons_of_mem _ hx)

theorem mem_collapseWs : ∀ s x, x ∈ collapseWs s → x = ' ' ∨ x ∈ s := by
  suffices h : ∀ n s, s.length ≤ n → ∀ x, x ∈ collapseWs s → x = ' ' ∨ x ∈ s by
    intro s x hx
    exact h s.length s le_rfl x hx
  intro n
  induction n with
  | zero =>
      intro s hlen x hx
      have : s = [] := List.eq_nil_of_length_eq_zero (by omega)
      subst this
      simp [collapseWs, collapseWsAux] at hx
  | succ n ih =>
      intro s hlen x hx
      cases s with
      | nil => simp [collapseWs, collapseWsAux] at hx
      | cons c rest =>
          simp only [List.length_cons] at hlen
          rw [collapseWs_eq] at hx
          replace hx : x ∈ (if isJsWhitespace c then
              ' ' :: collapseWs (rest.dropWhile isJsWhitespace)
            else c :: collapseWs rest) := hx
          by_cases hc : isJsWhitespace c
          · rw [if_pos hc] at hx
            rcases List.mem_cons.mp hx with hx | hx
            · exact Or.inl hx
            · have hle := dropWhileLenLe isJsWhitespace rest
              rcases ih (rest.dropWhile isJsWhitespace) (by omega) x hx with hx | hx
              · exact Or.inl hx
              · exact Or.inr
                  (List.mem_cons_of_mem _ ((List.dropWhile_sublist _).subset hx))
          · rw [if_neg hc] at hx
            rcases List.mem_cons.mp hx with hx | hx
            · subst hx
              exact Or.inr (List.mem_cons_self _ _)
            · rcases ih rest (by omega) x hx with hx | hx
              · exact Or.inl hx
              · exact Or.inr (List.mem_cons_of_mem _ hx)

theorem ltOk_tagAfterLt (l : List Char) (h : ltOk l = true) : tagAfterLt l = false := by
  cases l with
  | nil => rfl
  | cons d r =>
      rw [ltOk] at h
      rw [tagAfterLt]
      rcases Bool.or_eq_true _ _ |>.mp h with h | h
      · simp_all
      · simp_all

theorem noOpenTag_hasMarkup : ∀ s, noOpenTag s = true → hasMarkup s = false := by
  intro s
  induction s with
  | nil => intro _; rfl
  | cons c rest ih =>
      intro h
      rw [noOpenTag, Bool.and_eq_true] at h
      rw [hasMarkup, Bool.or_eq_false_iff]
      refine ⟨?_, ih h.2⟩
      by_cases hc : c = '<'
      · rw [if_pos hc]
        rw [if_pos hc] at h
        exact ltOk_tagAfterLt rest h.1
      · rw [if_neg hc]
  
theorem ltOk_of_noGt (l : List Char) (h : '>' ∉ l) : ltOk l = true := by
  cases l with
  | nil => rfl
  | cons d r =>
      rw [ltOk]
      have hr : '>' ∉ r := fun hh => h (List.mem_cons_of_mem _ hh)
      have : r.contains '>' = false := by simpa using hr
      rw [this, Bool.not_false, Bool.or_true]

theorem noGt_stripTags (s : List Char) (h : '>' ∉ s) : '>' ∉ stripTags s := by
  intro hmem
  rcases mem_stripTags s '>' hmem with hh | hh
  · cases hh
  · exact h hh

theorem noGt_collapseWs (s : List Char) (h : '>' ∉ s) : '>' ∉ collapseWs s := by
  intro hmem
  rcases mem_collapseWs s '>' hmem with hh | hh
  · cases hh
  · exact h hh

theorem takeTag_none_cases (s : List Char) (h : takeTag s = none) :
    s = [] ∨ (∃ t, s = '>' :: t) ∨ '>' ∉ s := by
  cases s with
  | nil => exact Or.inl rfl
  | cons c t =>
      rw [takeTag] at h
      split at h
      · rename_i hc
        exact Or.inr (Or.inl ⟨t, by rw [hc]⟩)
      · rename_i hc
        have ht : '>' ∉ t := seekClose_none t h
        refine Or.inr (Or.inr ?_)
        simp only [List.mem_cons, not_or]
        exact ⟨fun hh => hc hh.symm, ht⟩

theorem stripTags_noOpenTag : ∀ s, noOpenTag (stripTags s) = true := by
  suffices h : ∀ n s, s.length ≤ n → noOpenTag (stripTags s) = true by
    intro s
    exact h s.length s le_rfl
  intro n
  induction n with
  | zero =>
      intro s hlen
      have : s = [] := List.eq_nil_of_length_eq_zero (by omega)
      subst this
      rfl
  | succ n ih =>
      intro s hlen
      cases s with
      | nil => rfl
      | cons c rest =>
          simp only [List.length_cons] at hlen
          rw [stripTags_eq]
          show noOpenTag (if c = '<' then
              (match takeTag rest with
               | some rest' => ' ' :: stripTags rest'
               | none => '<' :: stripTags rest)
            else c :: stripTags rest) = true
          by_cases hc : c = '<'
          · rw [if_pos hc]
            cases htake : takeTag rest with
            | some rest' =>
                have hlt := takeTag_length rest rest' htake
                show noOpenTag (' ' :: stripTags rest') = true
                rw [noOpenTag, if_neg (by decide), ih rest' (by omega),
                  Bool.true_and]
            | none =>
                show noOpenTag ('<' :: stripTags rest) = true
                rw [noOpenTag, if_pos rfl, ih rest (by omega), Bool.and_true]
                rcases takeTag_none_cases rest htake with hr | ⟨t, hr⟩ | hr
                · subst hr
                  rfl
                · subst hr
                  rw [stripTags_eq]
                  show ltOk ('>' :: stripTags t) = true
                  rw [ltOk]
                  simp
                · exact ltOk_of_noGt _ (noGt_stripTags rest hr)
          · rw [if_neg hc, noOpenTag, if_neg hc, ih rest (by omega), Bool.true_and]

theorem contains_eq_false_iff (l : List Char) (a : Char) :
    l.contains a = false ↔ a ∉ l := by
  constructor
  · intro h hmem
    have hc : l.contains a = true := by simpa using hmem
    rw [h] at hc
    cases hc
  · intro h
    simpa using h

theorem noOpenTag_parts (c : Char) (rest : List Char)
    (h : noOpenTag (c :: rest) = true) :
    (c = '<' → ltOk rest = true) ∧ noOpenTag rest = true := by
  rw [noOpenTag, Bool.and_eq_true] at h
  refine ⟨fun hc => ?_, h.2⟩
  have := h.1
  rwa [if_pos hc] at this

theorem noOpenTag_dropWhile (p : Char → Bool) :
    ∀ s, noOpenTag s = true → noOpenTag (s.dropWhile p) = true := by
  intro s
  induction s with
  | nil => intro _; rfl
  | cons c rest ih =>
      intro h
      rw [List.dropWhile_cons]
      split
      · exact ih (noOpenTag_parts c rest h).2
      · exact h

theorem ltOk_collapseWs (l : List Char) (h : ltOk l = true) :
    ltOk (collapseWs l) = true := by
  cases l with
  | nil => rfl
  | cons d r =>
      rw [ltOk] at h
      rw [collapseWs_eq]
      show ltOk (if isJsWhitespace d then
          ' ' :: collapseWs (r.dropWhile isJsWhitespace)
        else d :: collapseWs r) = true
      rcases Bool.or_eq_true _ _ |>.mp h with hd | hnc
      · have hd' : d = '>' := by simpa using hd
        subst hd'
        rw [if_neg (by decide)]
        rw [ltOk]
        simp
      · have hr : '>' ∉ r := (contains_eq_false_iff r '>').mp (by simpa using hnc)
        by_cases hw : isJsWhitespace d
        · rw [if_pos hw, ltOk]
          have : '>' ∉ collapseWs (r.dropWhile isJsWhitespace) :=
            noGt_collapseWs _ (fun hh => hr ((List.dropWhile_sublist _).subset hh))
          rw [(contains_eq_false_iff _ _).mpr this, Bool.not_false, Bool.or_true]
        · rw [if_neg hw, ltOk]
          have : '>' ∉ collapseWs r := noGt_collapseWs r hr
          rw [(contains_eq_false_iff _ _).mpr this, Bool.not_false, Bool.or_true]

theorem noOpenTag_collapseWs : ∀ s, noOpenTag s = true →
    noOpenTag (collapseWs s) = true := by
  suffices h : ∀ n s, s.length ≤ n → noOpenTag s = true →
      noOpenTag (collapseWs s) = true by
    intro s
    exact h s.length s le_rfl
  intro n
  induction n with
  | zero =>
      intro s hlen _
      have : s = [] := List.eq_nil_of_length_eq_zero (by omega)
      subst this
      rfl
  | succ n ih =>
      intro s hlen h
      cases s with
      | nil => rfl
      | cons c rest =>
          simp only [List.length_cons] at hlen
          obtain ⟨hcond, htail⟩ := noOpenTag_parts c rest h
          rw [collapseWs_eq]
          show noOpenTag (if isJsWhitespace c then
              ' ' :: collapseWs (rest.dropWhile isJsWhitespace)
            else c :: collapseWs rest) = true
          by_cases hw : isJsWhitespace c
          · rw [if_pos hw, noOpenTag, if_neg (by decide), Bool.true_and]
            have hle := dropWhileLenLe isJsWhitespace rest
            exact ih _ (by omega) (noOpenTag_dropWhile _ rest htail)
          · rw [if_neg hw, noOpenTag]
            rw [Bool.and_eq_true]
            refine ⟨?_, ih rest (by omega) htail⟩
            by_cases hc : c = '<'
            · rw [if_pos hc]
              exact ltOk_collapseWs rest (hcond hc)
            · rw [if_neg hc]

theorem ltOk_append (l t : List Char) (h : ltOk l = true) (ht : '>' ∉ t) :
    ltOk (l ++ t) = true := by
  cases l with
  | nil => exact ltOk_of_noGt t ht
  | cons d r =>
      rw [ltOk] at h
      rw [List.cons_append, ltOk]
      rcases Bool.or_eq_true _ _ |>.mp h with hd | hnc
      · rw [hd, Bool.true_or]
      · have hr : '>' ∉ r := (contains_eq_false_iff r '>').mp (by simpa using hnc)
        have : '>' ∉ r ++ t := by
          simp only [List.mem_append, not_or]
          exact ⟨hr, ht⟩
        rw [(contains_eq_false_iff _ _).mpr this, Bool.not_false, Bool.or_true]

theorem noOpenTag_append_left : ∀ l t : List Char,
    noOpenTag (l ++ t) = true → noOpenTag l = true := by
  intro l t
  induction l with
  | nil => intro _; rfl
  | cons c l' ih =>
      intro h
      rw [List.cons_append] at h
      obtain ⟨hcond, htail⟩ := noOpenTag_parts c (l' ++ t) h
      rw [noOpenTag, Bool.and_eq_true]
      refine ⟨?_, ih htail⟩
      by_cases hc : c = '<'
      · rw [if_pos hc]
        have hlt := hcond hc
        cases l' with
        | nil => rfl
        | cons d r' =>
            rw [List.cons_append, ltOk] at hlt
            rw [ltOk]
            rcases Bool.or_eq_true _ _ |>.mp hlt with hd | hnc
            · rw [hd, Bool.true_or]
            · have : '>' ∉ r' ++ t := (contains_eq_false_iff _ '>').mp (by simpa using hnc)
              have hr : '>' ∉ r' := fun hh => this (List.mem_append.mpr (Or.inl hh))
              rw [(contains_eq_false_iff _ _).mpr hr, Bool.not_false, Bool.or_true]
      · rw [if_neg hc]

theorem noOpenTag_of_noLt (t : List Char) (h : '<' ∉ t) : noOpenTag t = true := by
  induction t with
  | nil => rfl
  | cons c r ih =>
      rw [noOpenTag, Bool.and_eq_true]
      refine ⟨?_, ih (fun hh => h (List.mem_cons_of_mem _ hh))⟩
      rw [if_neg (fun hc : c = '<' => h (hc ▸ List.mem_cons_self _ _))]

theorem noOpenTag_append_right (l t : List Char) (hl : noOpenTag l = true)
    (hlt : '<' ∉ t) (hgt : '>' ∉ t) : noOpenTag (l ++ t) = true := by
  induction l with
  | nil => exact noOpenTag_of_noLt t hlt
  | cons c l' ih =>
      obtain ⟨hcond, htail⟩ := noOpenTag_parts c l' hl
      rw [List.cons_append, noOpenTag, Bool.and_eq_true]
      refine ⟨?_, ih htail⟩
      by_cases hc : c = '<'
      · rw [if_pos hc]
        exact ltOk_append l' t (hcond hc) hgt
      · rw [if_neg hc]

theorem noOpenTag_take (s : List Char) (n : Nat) (h : noOpenTag s = true) :
    noOpenTag (s.take n) = true :=
  noOpenTag_append_left (s.take n) (s.drop n) (by rwa [List.take_append_drop])

theorem noOpenTag_trimWs (s : List Char) (h : noOpenTag s = true) :
    noOpenTag (trimWs s) = true := by
  rw [trimWs]
  have h1 : noOpenTag (s.dropWhile isJsWhitespace) = true :=
    noOpenTag_dropWhile isJsWhitespace s h
  set s1 := s.dropWhile isJsWhitespace with hs1
  have hdecomp : s1 = (s1.reverse.dropWhile isJsWhitespace).reverse ++
      (s1.reverse.takeWhile isJsWhitespace).reverse := by
    calc s1 = s1.reverse.reverse := (List.reverse_reverse _).symm
    _ = (s1.reverse.takeWhile isJsWhitespace ++
        s1.reverse.dropWhile isJsWhitespace).reverse := by
        rw [List.takeWhile_append_dropWhile]
    _ = _ := by rw [List.reverse_append]
  exact noOpenTag_append_left _ _ (hdecomp ▸ h1)

/-- The sanitized description never contains a match of the markup pattern. -/
theorem cleanDescription_noMarkup (s : List Char) :
    hasMarkup (cleanDescription s) = false := by
  have hno : noOpenTag (trimWs (collapseWs (stripTags s))) = true :=
    noOpenTag_trimWs _ (noOpenTag_collapseWs _ (stripTags_noOpenTag s))
  rw [cleanDescription]
  split
  · apply noOpenTag_hasMarkup
    apply noOpenTag_append_right _ _ (noOpenTag_take _ _ hno)
    · decide
    · decide
  · exact noOpenTag_hasMarkup _ hno

theorem stripTags_id : ∀ s : List Char, '<' ∉ s → stripTags s = s := by
  intro s
  induction s with
  | nil => intro _; rfl
  | cons c rest ih =>
      intro h
      rw [stripTags_eq]
      show (if c = '<' then
          (match takeTag rest with
           | some rest' => ' ' :: stripTags rest'
           | none => '<' :: stripTags rest)
        else c :: stripTags rest) = c :: rest
      rw [if_neg (fun hc : c = '<' => h (hc ▸ List.mem_cons_self _ _)),
        ih (fun hh => h (List.mem_cons_of_mem _ hh))]

theorem collapseWs_id : ∀ s : List Char, (∀ c ∈ s, isJsWhitespace c = false) →
    collapseWs s = s := by
  intro s
  induction s with
  | nil => intro _; rfl
  | cons c rest ih =>
      intro h
      rw [collapseWs_eq]
      show (if isJsWhitespace c then
          ' ' :: collapseWs (rest.dropWhile isJsWhitespace)
        else c :: collapseWs rest) = c :: rest
      rw [if_neg (by rw [h c (List.mem_cons_self _ _)]; exact Bool.false_ne_true),
        ih (fun x hx => h x (List.mem_cons_of_mem _ hx))]

theorem dropWhile_id (p : Char → Bool) (s : List Char)
    (h : ∀ c ∈ s, p c = false) : s.dropWhile p = s := by
  cases s with
  | nil => rfl
  | cons c rest =>
      rw [List.dropWhile_cons, if_neg]
      rw [h c (List.mem_cons_self _ _)]
      exact Bool.false_ne_true

theorem trimWs_id (s : List Char) (h : ∀ c ∈ s, isJsWhitespace c = false) :
    trimWs s = s := by
  rw [trimWs, dropWhile_id _ s h,
    dropWhile_id _ s.reverse (fun c hc => h c (List.mem_reverse.mp hc)),
    List.reverse_reverse]

/-- Claim C7: the normalized description never contains a match of the markup
pattern `/<[^>]+>/`, is never longer than 503 characters (500 plus the
3-character ellipsis marker), and a 600-character plain-text description (no
`<`, no whitespace) comes out with length exactly 503. -/
theorem claim_C7 (d : List Char) :
    hasMarkup (cleanDescription d) = false ∧
    (cleanDescription d).length ≤ 503 ∧
    (d.length = 600 → (∀ c ∈ d, ¬c = '<' ∧ isJsWhitespace c = false) →
      (cleanDescription d).length = 503) := by
  refine ⟨cleanDescription_noMarkup d, ?_, ?_⟩
  · rw [cleanDescription]
    split
    · rw [List.length_append, List.length_take]
      have : ("...".data).length = 3 := rfl
      omega
    · rename_i hle
      omega
  · intro hlen hplain
    have hstrip : stripTags d = d :=
      stripTags_id d (fun hh => (hplain '<' hh).1 rfl)
    have hcollapse : collapseWs d = d :=
      collapseWs_id d (fun c hc => (hplain c hc).2)
    have htrim : trimWs d = d :=
      trimWs_id d (fun c hc => (hplain c hc).2)
    rw [cleanDescription, hstrip, hcollapse, htrim]
    rw [if_pos (by omega)]
    rw [List.length_append, List.length_take]
    have : ("...".data).length = 3 := rfl
    omega

/-- Claim C7 witness: a 600-character plain-text description made of `a`s. -/
theorem claim_C7_witness :
    (cleanDescription (List.replicate 600 'a')).length = 503 :=
  (claim_C7 (List.replicate 600 'a')).2.2 (List.length_replicate 600 'a')
    (fun c hc => by
      have : c = 'a' := (List.eq_of_mem_replicate hc)
      subst this
      exact ⟨by decide, by decide⟩)

theorem parseLit_self : ∀ lit s : List Char, parseLit lit (lit ++ s) = some s := by
  intro lit
  induction lit with
  | nil => intro s; rfl
  | cons c lit ih =>
      intro s
      rw [List.cons_append, parseLit, if_pos rfl]
      exact ih s

theorem parseBoolTok_render (b : Bool) (rest : List Char) :
    parseBoolTok (FVal.render (.fbool b) ++ rest) = some (b, rest) := by
  cases b with
  | true => rw [parseBoolTok, FVal.render, parseLit_self]
  | false =>
      rw [parseBoolTok, FVal.render]
      have hmiss : parseLit "true".data ("false".data ++ rest) = none := by
        simp [parseLit]
      rw [hmiss, parseLit_self]

theorem digitChar_toNat : ∀ d, d < 10 → (digitChar d).toNat = 48 + d := by decide

theorem natDigits_all_digits : ∀ n, ∀ c ∈ natDigits n, isDigitCh c = true := by
  intro n
  induction n using Nat.strong_induction_on with
  | _ n ih =>
      intro c hc
      rw [natDigits_eq] at hc
      by_cases h10 : n < 10
      · rw [if_pos h10] at hc
        simp only [List.mem_singleton] at hc
        subst hc
        exact digitChar_isDigit n h10
      · rw [if_neg h10] at hc
        rcases List.mem_append.mp hc with hc | hc
        · exact ih (n / 10) (Nat.div_lt_self (by omega) (by omega)) c hc
        · simp only [List.mem_singleton] at hc
          subst hc
          exact digitChar_isDigit (n % 10) (Nat.mod_lt _ (by omega))

theorem natDigits_foldl : ∀ n acc,
    (natDigits n).foldl (fun a c => a * 10 + (c.toNat - 48)) acc =
      acc * 10 ^ (natDigits n).length + n := by
  intro n
  induction n using Nat.strong_induction_on with
  | _ n ih =>
      intro acc
      rw [natDigits_eq]
      by_cases h10 : n < 10
      · rw [if_pos h10]
        simp only [List.foldl_cons, List.foldl_nil, List.length_singleton]
        rw [digitChar_toNat n h10]
        omega
      · rw [if_neg h10]
        rw [List.foldl_append, List.length_append]
        rw [ih (n / 10) (Nat.div_lt_self (by omega) (by omega)) acc]
        simp only [List.foldl_cons, List.foldl_nil, List.length_singleton]
        rw [digitChar_toNat (n % 10) (Nat.mod_lt _ (by omega))]
        have hmod : (n / 10) * 10 + n % 10 = n := by
          have := Nat.div_add_mod n 10
          omega
        have hpow : 10 ^ ((natDigits (n / 10)).length + 1) =
            10 ^ (natDigits (n / 10)).length * 10 := by
          rw [pow_succ]
        rw [hpow]
        ring_nf
        omega

theorem readDigits_append : ∀ ds : List Char, ∀ acc rest,
    (∀ c ∈ ds, isDigitCh c = true) →
    (∀ c, rest.head? = some c → isDigitCh c = false) →
    readDigits (ds ++ rest) acc =
      (ds.foldl (fun a c => a * 10 + (c.toNat - 48)) acc, rest) := by
  intro ds
  induction ds with
  | nil =>
      intro acc rest _ hrest
      cases rest with
      | nil => rfl
      | cons c r =>
          rw [List.nil_append, readDigits, if_neg]
          · rfl
          · rw [hrest c rfl]
            exact Bool.false_ne_true
  | cons d ds ih =>
      intro acc rest hds hrest
      rw [List.cons_append, readDigits, if_pos (hds d (List.mem_cons_self _ _))]
      rw [ih _ rest (fun c hc => hds c (List.mem_cons_of_mem _ hc)) hrest]
      rfl

theorem parseNatTok_natDigits (n : Nat) (rest : List Char)
    (hrest : ∀ c, rest.head? = some c → isDigitCh c = false) :
    parseNatTok (natDigits n ++ rest) = some (n, rest) := by
  obtain ⟨d, ds, heq, hd⟩ := natDigits_head n
  have hall := natDigits_all_digits n
  rw [heq] at hall ⊢
  rw [List.cons_append, parseNatTok, if_pos (hall _ (List.mem_cons_self _ _))]
  rw [readDigits_append ds _ rest (fun c hc => hall c (List.mem_cons_of_mem _ hc)) hrest]
  have hfold := natDigits_foldl n 0
  rw [heq] at hfold
  simp only [List.foldl_cons, zero_mul, zero_add] at hfold
  have : (digitChar d).toNat - 48 = d := by
    rw [digitChar_toNat d hd]
    omega
  rw [this] at hfold ⊢
  rw [hfold]

theorem hexVal_hexDigitChar : ∀ m, m < 16 → hexVal (hexDigitChar m) = m := by decide

theorem readStrBody_escape : ∀ s rest : List Char,
    readStrBody (escapeStr s ++ '"' :: rest) = some (s, rest) := by
  intro s
  induction s with
  | nil =>
      intro rest
      show readStrBody ('"' :: rest) = some ([], rest)
      rw [readStrBody.eq_def]
      show (if '"' = '"' then some (([] : List Char), rest) else _) = some ([], rest)
      rw [if_pos rfl]
  | cons c s' ih =>
      intro rest
      have hesc : escapeStr (c :: s') = escapeChar c ++ escapeStr s' := by
        rw [escapeStr, escapeStr, List.map_cons, List.flatten_cons]
      rw [hesc, List.append_assoc]
      by_cases h1 : c = '"'
      · rw [show escapeChar c = ['\\', '"'] from by rw [escapeChar, if_pos h1]]
        show (readStrBody (escapeStr s' ++ '"' :: rest)).map
          (fun p => (unescapeChar '"' :: p.1, p.2)) = some (c :: s', rest)
        rw [ih rest]
        rw [show unescapeChar '"' = '"' from rfl, h1]
        rfl
      · by_cases h2 : c = '\\'
        · rw [show escapeChar c = ['\\', '\\'] from by
            rw [escapeChar, if_neg h1, if_pos h2]]
          show (readStrBody (escapeStr s' ++ '"' :: rest)).map
            (fun p => (unescapeChar '\\' :: p.1, p.2)) = some (c :: s', rest)
          rw [ih rest]
          rw [show unescapeChar '\\' = '\\' from rfl, h2]
          rfl
        · by_cases h3 : c.toNat = 8
          · rw [show escapeChar c = ['\\', 'b'] from by
              rw [escapeChar, if_neg h1, if_neg h2, if_pos h3]]
            show (readStrBody (escapeStr s' ++ '"' :: rest)).map
              (fun p => (unescapeChar 'b' :: p.1, p.2)) = some (c :: s', rest)
            rw [ih rest]
            have hc : unescapeChar 'b' = c := by
              rw [show unescapeChar 'b' = Char.ofNat 8 from rfl, ← h3,
                Char.ofNat_toNat]
            rw [hc]
            rfl
          · by_cases h4 : c = '\t'
            · rw [show escapeChar c = ['\\', 't'] from by
                rw [escapeChar, if_neg h1, if_neg h2, if_neg h3, if_pos h4]]
              show (readStrBody (escapeStr s' ++ '"' :: rest)).map
                (fun p => (unescapeChar 't' :: p.1, p.2)) = some (c :: s', rest)
              rw [ih rest]
              rw [show unescapeChar 't' = '\t' from rfl, h4]
              rfl
            · by_cases h5 : c = '\n'
              · rw [show escapeChar c = ['\\', 'n'] from by
                  rw [escapeChar, if_neg h1, if_neg h2, if_neg h3, if_neg h4,
                    if_pos h5]]
                show (readStrBody (escapeStr s' ++ '"' :: rest)).map
                  (fun p => (unescapeChar 'n' :: p.1, p.2)) = some (c :: s', rest)
                rw [ih rest]
                rw [show unescapeChar 'n' = '\n' from rfl, h5]
                rfl
              · by_cases h6 : c.toNat = 12
                · rw [show escapeChar c = ['\\', 'f'] from by
                    rw [escapeChar, if_neg h1, if_neg h2, if_neg h3, if_neg h4,
                      if_neg h5, if_pos h6]]
                  show (readStrBody (escapeStr s' ++ '"' :: rest)).map
                    (fun p => (unescapeChar 'f' :: p.1, p.2)) = some (c :: s', rest)
                  rw [ih rest]
                  have hc : unescapeChar 'f' = c := by
                    rw [show unescapeChar 'f' = Char.ofNat 12 from rfl, ← h6,
                      Char.ofNat_toNat]
                  rw [hc]
                  rfl
                · by_cases h7 : c = '\r'
                  · rw [show escapeChar c = ['\\', 'r'] from by
                      rw [escapeChar, if_neg h1, if_neg h2, if_neg h3, if_neg h4,
                        if_neg h5, if_neg h6, if_pos h7]]
                    show (readStrBody (escapeStr s' ++ '"' :: rest)).map
                      (fun p => (unescapeChar 'r' :: p.1, p.2)) = some (c :: s', rest)
                    rw [ih rest]
                    rw [show unescapeChar 'r' = '\r' from rfl, h7]
                    rfl
                  · by_cases h8 : c.toNat < 32
                    · rw [show escapeChar c =
                          ['\\', 'u', '0', '0', hexDigitChar (c.toNat / 16),
                            hexDigitChar (c.toNat % 16)] from by
                        rw [escapeChar, if_neg h1, if_neg h2, if_neg h3, if_neg h4,
                          if_neg h5, if_neg h6, if_neg h7, if_pos h8]]
                      show (readStrBody (escapeStr s' ++ '"' :: rest)).map
                        (fun p =>
                          (Char.ofNat (((hexVal '0' * 16 + hexVal '0') * 16 +
                            hexVal (hexDigitChar (c.toNat / 16))) * 16 +
                            hexVal (hexDigitChar (c.toNat % 16))) :: p.1, p.2)) =
                        some (c :: s', rest)
                      rw [ih rest]
                      have hval : (((hexVal '0' * 16 + hexVal '0') * 16 +
                          hexVal (hexDigitChar (c.toNat / 16))) * 16 +
                          hexVal (hexDigitChar (c.toNat % 16))) = c.toNat := by
                        rw [hexVal_hexDigitChar (c.toNat / 16) (by omega),
                          hexVal_hexDigitChar (c.toNat % 16) (by omega),
                          show hexVal '0' = 0 from rfl]
                        omega
                      rw [hval, Char.ofNat_toNat]
                      rfl
                    · rw [show escapeChar c = [c] from by
                        rw [escapeChar, if_neg h1, if_neg h2, if_neg h3, if_neg h4,
                          if_neg h5, if_neg h6, if_neg h7, if_neg h8]]
                      show readStrBody (c :: (escapeStr s' ++ '"' :: rest)) =
                        some (c :: s', rest)
                      rw [readStrBody.eq_def]
                      show (if c = '"' then _
                        else if c = '\\' then _
                        else (readStrBody (escapeStr s' ++ '"' :: rest)).map
                          (fun p => (c :: p.1, p.2))) = some (c :: s', rest)
                      rw [if_neg h1, if_neg h2, ih rest]
                      rfl

theorem parseStrTok_render (v rest : List Char) :
    parseStrTok (FVal.render (.fstr v) ++ rest) = some (v, rest) := by
  rw [FVal.render, quoteStr, List.cons_append, parseStrTok, if_pos rfl,
    List.append_assoc]
  exact readStrBody_escape v rest

theorem parseLit_none_take2 (lit s : List Char) (a b : Char)
    (hlit : lit.take 2 = ['"', a]) (hs : s.take 2 = ['"', b]) (hne : a ≠ b) :
    parseLit lit s = none := by
  cases lit with
  | nil => simp [List.take] at hlit
  | cons c1 lit1 =>
      cases lit1 with
      | nil => simp [List.take] at hlit
      | cons c2 lit2 =>
          cases s with
          | nil => simp [List.take] at hs
          | cons d1 s1 =>
              cases s1 with
              | nil => simp [List.take] at hs
              | cons d2 s2 =>
                  have hl : [c1, c2] = ['"', a] := hlit
                  have hs' : [d1, d2] = ['"', b] := hs
                  simp only [List.cons.injEq, and_true] at hl hs'
                  obtain ⟨hc1, hc2⟩ := hl
                  obtain ⟨hd1, hd2⟩ := hs'
                  subst hc1 hc2 hd1 hd2
                  rw [parseLit, if_pos rfl, parseLit, if_neg hne]

theorem parseLit_none_brace (lit s : List Char)
    (hlit : lit.take 1 = ['"']) (hs : s.take 1 = [Char.ofNat 125]) :
    parseLit lit s = none := by
  cases lit with
  | nil => simp [List.take] at hlit
  | cons c1 lit1 =>
      cases s with
      | nil => simp [List.take] at hs
      | cons d1 s1 =>
          have hl : [c1] = ['"'] := hlit
          have hs' : [d1] = [Char.ofNat 125] := hs
          simp only [List.cons.injEq, and_true] at hl hs'
          subst hl hs'
          rw [parseLit, if_neg (by decide)]

theorem tryFieldB_miss (name s : List Char)
    (h : parseLit (quoteStr name ++ [':']) s = none) :
    tryFieldB name s = (none, s) := by
  simp only [tryFieldB, h]

theorem tryFieldN_miss (name s : List Char)
    (h : parseLit (quoteStr name ++ [':']) s = none) :
    tryFieldN name s = (none, s) := by
  simp only [tryFieldN, h]

theorem tryFieldS_miss (name s : List Char)
    (h : parseLit (quoteStr name ++ [':']) s = none) :
    tryFieldS name s = (none, s) := by
  simp only [tryFieldS, h]

theorem tryFieldB_hit (name : List Char) (b : Bool) (rest : List Char) :
    tryFieldB name (quoteStr name ++ (':' :: (FVal.render (.fbool b) ++ rest))) =
      (some b, skipComma rest) := by
  have hlit : parseLit (quoteStr name ++ [':'])
      (quoteStr name ++ (':' :: (FVal.render (.fbool b) ++ rest))) =
      some (FVal.render (.fbool b) ++ rest) := by
    have h := parseLit_self (quoteStr name ++ [':']) (FVal.render (.fbool b) ++ rest)
    rwa [List.append_assoc, List.singleton_append] at h
  simp only [tryFieldB, hlit, parseBoolTok_render]

theorem tryFieldN_hit (name : List Char) (n : Nat) (rest : List Char)
    (hrest : ∀ c, rest.head? = some c → isDigitCh c = false) :
    tryFieldN name (quoteStr name ++ (':' :: (FVal.render (.fnum n) ++ rest))) =
      (some n, skipComma rest) := by
  have hlit : parseLit (quoteStr name ++ [':'])
      (quoteStr name ++ (':' :: (natDigits n ++ rest))) =
      some (natDigits n ++ rest) := by
    have h := parseLit_self (quoteStr name ++ [':']) (natDigits n ++ rest)
    rwa [List.append_assoc, List.singleton_append] at h
  simp only [tryFieldN, FVal.render, hlit, parseNatTok_natDigits n rest hrest]

theorem tryFieldS_hit (name : List Char) (v : List Char) (rest : List Char) :
    tryFieldS name (quoteStr name ++ (':' :: (FVal.render (.fstr v) ++ rest))) =
      (some v, skipComma rest) := by
  have hlit : parseLit (quoteStr name ++ [':'])
      (quoteStr name ++ (':' :: (FVal.render (.fstr v) ++ rest))) =
      some (FVal.render (.fstr v) ++ rest) := by
    have h := parseLit_self (quoteStr name ++ [':']) (FVal.render (.fstr v) ++ rest)
    rwa [List.append_assoc, List.singleton_append] at h
  simp only [tryFieldS, hlit, parseStrTok_render]

theorem skipComma_joinCommaRest (rest : List (List Char)) :
    skipComma (joinCommaRest rest ++ [Char.ofNat 125]) =
      joinComma rest ++ [Char.ofNat 125] := by
  cases rest with
  | nil =>
      show skipComma [Char.ofNat 125] = [Char.ofNat 125]
      rw [skipComma, if_neg (by decide)]
  | cons x xs =>
      rw [joinCommaRest, joinComma, List.cons_append, skipComma, if_pos rfl,
        List.append_assoc]

theorem joinCommaRest_noDigitStart (xs : List (List Char)) :
    ∀ c, (joinCommaRest xs ++ [Char.ofNat 125]).head? = some c →
      isDigitCh c = false := by
  cases xs with
  | nil =>
      intro c hc
      rw [joinCommaRest, List.nil_append, List.head?_cons] at hc
      injection hc with hc
      subst hc
      decide
  | cons x xs =>
      intro c hc
      rw [joinCommaRest, List.cons_append, List.head?_cons] at hc
      injection hc with hc
      subst hc
      decide

/-! ## Cache-key injectivity on canonically ordered filters (claim C2) -/

theorem renderBody_some_remote (b : Bool) (ol : Option Nat)
    (oc ot : Option (List Char)) (osd : Option Bool) :
    renderBody ⟨some b, ol, oc, ot, osd⟩ =
      quoteStr "remote".data ++ (':' :: (FVal.render (.fbool b) ++
        (joinCommaRest ((filtersToObj ⟨none, ol, oc, ot, osd⟩).map
          (fun kv => quoteStr kv.1 ++ ':' :: kv.2.render)) ++ [Char.ofNat 125]))) := by
  have h : filtersToObj ⟨some b, ol, oc, ot, osd⟩ =
      ("remote".data, FVal.fbool b) :: filtersToObj ⟨none, ol, oc, ot, osd⟩ := rfl
  rw [renderBody, h, List.map_cons, joinComma]
  simp only [List.append_assoc, List.cons_append]

theorem renderBody_some_limit (n : Nat)
    (oc ot : Option (List Char)) (osd : Option Bool) :
    renderBody ⟨none, some n, oc, ot, osd⟩ =
      quoteStr "limit".data ++ (':' :: (FVal.render (.fnum n) ++
        (joinCommaRest ((filtersToObj ⟨none, none, oc, ot, osd⟩).map
          (fun kv => quoteStr kv.1 ++ ':' :: kv.2.render)) ++ [Char.ofNat 125]))) := by
  have h : filtersToObj ⟨none, some n, oc, ot, osd⟩ =
      ("limit".data, FVal.fnum n) :: filtersToObj ⟨none, none, oc, ot, osd⟩ := rfl
  rw [renderBody, h, List.map_cons, joinComma]
  simp only [List.append_assoc, List.cons_append]

theorem renderBody_some_country (cs : List Char)
    (ot : Option (List Char)) (osd : Option Bool) :
    renderBody ⟨none, none, some cs, ot, osd⟩ =
      quoteStr "country".data ++ (':' :: (FVal.render (.fstr cs) ++
        (joinCommaRest ((filtersToObj ⟨none, none, none, ot, osd⟩).map
          (fun kv => quoteStr kv.1 ++ ':' :: kv.2.render)) ++ [Char.ofNat 125]))) := by
  have h : filtersToObj ⟨none, none, some cs, ot, osd⟩ =
      ("country".data, FVal.fstr cs) :: filtersToObj ⟨none, none, none, ot, osd⟩ := rfl
  rw [renderBody, h, List.map_cons, joinComma]
  simp only [List.append_assoc, List.cons_append]

theorem renderBody_some_tag (ts : List Char) (osd : Option Bool) :
    renderBody ⟨none, none, none, some ts, osd⟩ =
      quoteStr "tag".data ++ (':' :: (FVal.render (.fstr ts) ++
        (joinCommaRest ((filtersToObj ⟨none, none, none, none, osd⟩).map
          (fun kv => quoteStr kv.1 ++ ':' :: kv.2.render)) ++ [Char.ofNat 125]))) := by
  have h : filtersToObj ⟨none, none, none, some ts, osd⟩ =
      ("tag".data, FVal.fstr ts) :: filtersToObj ⟨none, none, none, none, osd⟩ := rfl
  rw [renderBody, h, List.map_cons, joinComma]
  simp only [List.append_assoc, List.cons_append]

theorem renderBody_some_sd (sd : Bool) :
    renderBody ⟨none, none, none, none, some sd⟩ =
      quoteStr "show_description".data ++ (':' :: (FVal.render (.fbool sd) ++
        [Char.ofNat 125])) := by
  have h : filtersToObj ⟨none, none, none, none, some sd⟩ =
      [("show_description".data, FVal.fbool sd)] := rfl
  rw [renderBody, h, List.map_cons, joinComma]
  simp only [List.append_assoc, List.cons_append, List.map_nil, joinCommaRest,
    List.append_nil]

theorem stepRemote (rb : Option Bool) (ol : Option Nat)
    (oc ot : Option (List Char)) (osd : Option Bool) :
    tryFieldB "remote".data (renderBody ⟨rb, ol, oc, ot, osd⟩) =
      (rb, renderBody ⟨none, ol, oc, ot, osd⟩) := by
  rcases rb with _ | b
  · apply tryFieldB_miss
    rcases ol with _ | n
    · rcases oc with _ | cs
      · rcases ot with _ | ts
        · rcases osd with _ | sd
          · exact parseLit_none_brace _ _ rfl rfl
          · exact parseLit_none_take2 _ _ 'r' 's' rfl rfl (by decide)
        · exact parseLit_none_take2 _ _ 'r' 't' rfl rfl (by decide)
      · exact parseLit_none_take2 _ _ 'r' 'c' rfl rfl (by decide)
    · exact parseLit_none_take2 _ _ 'r' 'l' rfl rfl (by decide)
  · rw [renderBody_some_remote, tryFieldB_hit, skipComma_joinCommaRest]
    rfl

theorem stepLimit (ol : Option Nat)
    (oc ot : Option (List Char)) (osd : Option Bool) :
    tryFieldN "limit".data (renderBody ⟨none, ol, oc, ot, osd⟩) =
      (ol, renderBody ⟨none, none, oc, ot, osd⟩) := by
  rcases ol with _ | n
  · apply tryFieldN_miss
    rcases oc with _ | cs
    · rcases ot with _ | ts
      · rcases osd with _ | sd
        · exact parseLit_none_brace _ _ rfl rfl
        · exact parseLit_none_take2 _ _ 'l' 's' rfl rfl (by decide)
      · exact parseLit_none_take2 _ _ 'l' 't' rfl rfl (by decide)
    · exact parseLit_none_take2 _ _ 'l' 'c' rfl rfl (by decide)
  · have h := tryFieldN_hit "limit".data n
      (joinCommaRest ((filtersToObj ⟨none, none, oc, ot, osd⟩).map
        (fun kv => quoteStr kv.1 ++ ':' :: kv.2.render)) ++ [Char.ofNat 125])
      (joinCommaRest_noDigitStart _)
    rw [renderBody_some_limit, h, skipComma_joinCommaRest]
    rfl

theorem stepCountry (oc ot : Option (List Char)) (osd : Option Bool) :
    tryFieldS "country".data (renderBody ⟨none, none, oc, ot, osd⟩) =
      (oc, renderBody ⟨none, none, none, ot, osd⟩) := by
  rcases oc with _ | cs
  · apply tryFieldS_miss
    rcases ot with _ | ts
    · rcases osd with _ | sd
      · exact parseLit_none_brace _ _ rfl rfl
      · exact parseLit_none_take2 _ _ 'c' 's' rfl rfl (by decide)
    · exact parseLit_none_take2 _ _ 'c' 't' rfl rfl (by decide)
  · rw [renderBody_some_country, tryFieldS_hit, skipComma_joinCommaRest]
    rfl

theorem stepTag (ot : Option (List Char)) (osd : Option Bool) :
    tryFieldS "tag".data (renderBody ⟨none, none, none, ot, osd⟩) =
      (ot, renderBody ⟨none, none, none, none, osd⟩) := by
  rcases ot with _ | ts
  · apply tryFieldS_miss
    rcases osd with _ | sd
    · exact parseLit_none_brace _ _ rfl rfl
    · exact parseLit_none_take2 _ _ 't' 's' rfl rfl (by decide)
  · rw [renderBody_some_tag, tryFieldS_hit, skipComma_joinCommaRest]
    rfl

theorem stepSd (osd : Option Bool) :
    tryFieldB "show_description".data (renderBody ⟨none, none, none, none, osd⟩) =
      (osd, [Char.ofNat 125]) := by
  rcases osd with _ | sd
  · apply tryFieldB_miss
    exact parseLit_none_brace _ _ rfl rfl
  · rw [renderBody_some_sd]
    have h := tryFieldB_hit "show_description".data sd [Char.ofNat 125]
    rw [h]
    rfl

set_option maxRecDepth 8000 in
/-- The reference parser is a left inverse of the cache-key rendering: every
canonically ordered filters record is recovered from its cache key. -/
theorem parseFilters_cacheKeyOf (f : JobFilters) :
    parseFilters (cacheKeyOf f) = some f := by
  obtain ⟨rb, ol, oc, ot, osd⟩ := f
  have hk : cacheKeyOf ⟨rb, ol, oc, ot, osd⟩ =
      Char.ofNat 123 :: renderBody ⟨rb, ol, oc, ot, osd⟩ := rfl
  rw [hk, parseFilters]
  rw [if_pos rfl]
  have s1 : tryFieldB ['r', 'e', 'm', 'o', 't', 'e']
      (renderBody ⟨rb, ol, oc, ot, osd⟩) =
      (rb, renderBody ⟨none, ol, oc, ot, osd⟩) := stepRemote rb ol oc ot osd
  have s2 : tryFieldN ['l', 'i', 'm', 'i', 't']
      (renderBody ⟨none, ol, oc, ot, osd⟩) =
      (ol, renderBody ⟨none, none, oc, ot, osd⟩) := stepLimit ol oc ot osd
  have s3 : tryFieldS ['c', 'o', 'u', 'n', 't', 'r', 'y']
      (renderBody ⟨none, none, oc, ot, osd⟩) =
      (oc, renderBody ⟨none, none, none, ot, osd⟩) := stepCountry oc ot osd
  have s4 : tryFieldS ['t', 'a', 'g']
      (renderBody ⟨none, none, none, ot, osd⟩) =
      (ot, renderBody ⟨none, none, none, none, osd⟩) := stepTag ot osd
  have s5 : tryFieldB
      ['s', 'h', 'o', 'w', '_', 'd', 'e', 's', 'c', 'r', 'i', 'p', 't',
        'i', 'o', 'n']
      (renderBody ⟨none, none, none, none, osd⟩) =
      (osd, [Char.ofNat 125]) := stepSd osd
  simp only [s1, s2, s3, s4, s5]
  rw [if_pos trivial]

/-- Claim C2 (amended): the cache key `JSON.stringify(filters)` computed by
`getJobs` is injective on filters objects in the tool layer's canonical field
insertion order (remote, limit, country, tag, show_description): any two such
filter records that differ in the value of any field get different keys.  It
is NOT order-canonical: `JSON.stringify` lays out properties in insertion
order, so the same field set inserted in a different order yields a different
key (see the counterexample). -/
theorem claim_C2 (f1 f2 : JobFilters) (h : cacheKeyOf f1 = cacheKeyOf f2) :
    f1 = f2 := by
  have h1 := parseFilters_cacheKeyOf f1
  rw [h, parseFilters_cacheKeyOf f2] at h1
  injection h1 with h1
  exact h1.symm

/-- Claim C2 counterexample: the serialization is not canonical in the
claimed sense.  The objects `{remote: true, limit: 5}` and
`{limit: 5, remote: true}` are the same JS property set — one is a
permutation of the other — yet `JSON.stringify` renders them to different
cache keys, so semantically identical filter sets do NOT collide to the same
key regardless of field ordering. -/
theorem claim_C2_counterexample :
    List.Perm
      [("remote".data, FVal.fbool true), ("limit".data, FVal.fnum 5)]
      [("limit".data, FVal.fnum 5), ("remote".data, FVal.fbool true)] ∧
    jsonStringifyF
        [("remote".data, FVal.fbool true), ("limit".data, FVal.fnum 5)] ≠
      jsonStringifyF
        [("limit".data, FVal.fnum 5), ("remote".data, FVal.fbool true)] :=
  ⟨List.Perm.swap ("limit".data, FVal.fnum 5) ("remote".data, FVal.fbool true) [],
    by decide⟩

/-- Claim C2 witness: injectivity applied at a concrete pair of filter
records with equal keys. -/
theorem claim_C2_witness :
    (⟨some true, some 20, none, none, some false⟩ : JobFilters) =
      ⟨some true, some 20, none, none, some false⟩ :=
  claim_C2 ⟨some true, some 20, none, none, some false⟩
    ⟨some true, some 20, none, none, some false⟩ rfl
